import Mathlib

/-!
# Verification of the gh0st crawl-and-audit tool

Shallow embedding of the crawl orchestration subsystem of the `gh0st`
repository (`src/app/*.rs`): the SEO issue vocabulary and scoring, the URL
normalizer, the link extractor, the dashboard state (`AppState.push_row`),
the event handler, the redirect probe, the fallback fetch loop
(`process_single_url`), the CSV export/import layer and the JSON sink.

External crates (`url`, `reqwest`, `spider`, `csv`, `form_urlencoded`,
Rust `std` formatting) are modelled: the URL parser is modelled on a
restricted ASCII fragment of the WHATWG grammar, HTTP fetches are oracles
passed in as functions, and the CSV quoting layer is modelled as a list of
cell strings.  All repository logic is translated directly from the source.
-/

namespace Gh0st

/-! ## ASCII character classes -/

/-- ASCII digit. -/
def isDigitC (c : Char) : Bool := 48 ≤ c.toNat && c.toNat ≤ 57

/-- ASCII uppercase letter. -/
def isUpperC (c : Char) : Bool := 65 ≤ c.toNat && c.toNat ≤ 90

/-- ASCII lowercase letter. -/
def isLowerC (c : Char) : Bool := 97 ≤ c.toNat && c.toNat ≤ 122

/-- ASCII letter. -/
def isAlphaC (c : Char) : Bool := isUpperC c || isLowerC c

/-- ASCII letter or digit. -/
def isAlphaNumC (c : Char) : Bool := isAlphaC c || isDigitC c

/-! ## Decimal printing and parsing (model of Rust `to_string` / `parse`) -/

/-- The ASCII digit character for `d < 10`. -/
def digitChar (d : Nat) : Char := Char.ofNat (48 + d)

/-- Fuel-bounded digit expansion (structural recursion so that concrete
values reduce in the kernel). -/
def natDigitsAux : Nat → Nat → List Char
  | 0, _ => []
  | fuel + 1, n =>
    if n < 10 then [digitChar n]
    else natDigitsAux fuel (n / 10) ++ [digitChar (n % 10)]

/-- Decimal digits of `n`, most significant first (model of Rust's
`Display for u64` and friends); `n + 1` units of fuel always suffice. -/
def natDigits (n : Nat) : List Char := natDigitsAux (n + 1) n

/-- Numeric value of an ASCII digit character. -/
def digitVal (c : Char) : Nat := c.toNat - 48

/-- Accumulate a digit list into a natural number. -/
def foldDigits (l : List Char) : Nat := l.foldl (fun a c => a * 10 + digitVal c) 0

/-- Model of Rust `n.to_string()` for unsigned integers. -/
def natToString (n : Nat) : String := ⟨natDigits n⟩

/-- Model of Rust `str::parse::<uN>()` (all integer fields are modelled as
unbounded naturals). -/
def parseNatCh (l : List Char) : Option Nat :=
  if l ≠ [] ∧ l.all isDigitC then some (foldDigits l) else none

/-- String wrapper for `parseNatCh`. -/
def parseNat? (s : String) : Option Nat := parseNatCh s.data

/-! ## ASCII string utilities (models of Rust `char`/`str` helpers) -/

/-- Whitespace as trimmed by `str::trim` (ASCII fragment). -/
def isWsChar (c : Char) : Bool := c = ' ' || c = '\t' || c = '\n' || c = '\r'

/-- Drop leading and trailing whitespace (model of `str::trim`). -/
def trimCh (l : List Char) : List Char :=
  ((l.dropWhile isWsChar).reverse.dropWhile isWsChar).reverse

/-- Model of Rust `str::trim`. -/
def rustTrim (s : String) : String := ⟨trimCh s.data⟩

/-- ASCII lowercase of one character (model of `to_ascii_lowercase`). -/
def lowerChar (c : Char) : Char :=
  if 65 ≤ c.toNat ∧ c.toNat ≤ 90 then Char.ofNat (c.toNat + 32) else c

/-- ASCII lowercase of a character list. -/
def lowerCh (l : List Char) : List Char := l.map lowerChar

/-- Model of `str::to_ascii_lowercase`. -/
def asciiLower (s : String) : String := ⟨lowerCh s.data⟩

/-- Model of `row.title.trim().to_ascii_lowercase()` used for the duplicate
title/meta multisets. -/
def trimLower (s : String) : String := asciiLower (rustTrim s)

/-! ## SEO issue vocabulary (src/app/types.rs) -/

/-- The closed vocabulary of SEO issues (`enum SeoIssue`). -/
inductive SeoIssue where
  | NotRetrieved
  | Http4xx
  | Http5xx
  | Noindex
  | MissingTitle
  | TitleTooShort
  | TitleTooLong
  | MissingMetaDescription
  | MetaDescriptionTooShort
  | MetaDescriptionTooLong
  | MissingH1
  | MultipleH1
  | MissingCanonical
  | LowWordCount
  | ImagesMissingAlt
  | TooManyExternalLinks
deriving DecidableEq, Repr

/-- `SeoIssue::label` (src/app/types.rs). -/
def SeoIssue.label : SeoIssue → String
  | .NotRetrieved => "not_retrieved"
  | .Http4xx => "status_4xx"
  | .Http5xx => "status_5xx"
  | .Noindex => "noindex"
  | .MissingTitle => "missing_title"
  | .TitleTooShort => "title_too_short"
  | .TitleTooLong => "title_too_long"
  | .MissingMetaDescription => "missing_meta_description"
  | .MetaDescriptionTooShort => "meta_description_too_short"
  | .MetaDescriptionTooLong => "meta_description_too_long"
  | .MissingH1 => "missing_h1"
  | .MultipleH1 => "multiple_h1"
  | .MissingCanonical => "missing_canonical"
  | .LowWordCount => "low_word_count"
  | .ImagesMissingAlt => "images_missing_alt"
  | .TooManyExternalLinks => "too_many_external_links"

/-- `SeoIssue::penalty` (src/app/types.rs). -/
def SeoIssue.penalty : SeoIssue → Nat
  | .NotRetrieved => 70
  | .Http5xx => 65
  | .Http4xx => 40
  | .Noindex => 20
  | .MissingTitle => 25
  | .TitleTooShort => 10
  | .TitleTooLong => 8
  | .MissingMetaDescription => 20
  | .MetaDescriptionTooShort => 8
  | .MetaDescriptionTooLong => 8
  | .MissingH1 => 14
  | .MultipleH1 => 8
  | .MissingCanonical => 10
  | .LowWordCount => 10
  | .ImagesMissingAlt => 8
  | .TooManyExternalLinks => 6

/-- `SeoIssue::from_label` (src/app/types.rs). -/
def SeoIssue.from_label (label : String) : Option SeoIssue :=
  match rustTrim label with
  | "not_retrieved" => some .NotRetrieved
  | "status_4xx" => some .Http4xx
  | "status_5xx" => some .Http5xx
  | "noindex" => some .Noindex
  | "missing_title" => some .MissingTitle
  | "title_too_short" => some .TitleTooShort
  | "title_too_long" => some .TitleTooLong
  | "missing_meta_description" => some .MissingMetaDescription
  | "meta_description_too_short" => some .MetaDescriptionTooShort
  | "meta_description_too_long" => some .MetaDescriptionTooLong
  | "missing_h1" => some .MissingH1
  | "multiple_h1" => some .MultipleH1
  | "missing_canonical" => some .MissingCanonical
  | "low_word_count" => some .LowWordCount
  | "images_missing_alt" => some .ImagesMissingAlt
  | "too_many_external_links" => some .TooManyExternalLinks
  | _ => none

/-- `compute_seo_score` (src/app/crawl.rs): penalties are summed in `u16`
(wrap-around modelled with `% 65536`) and subtracted from 100 with
`saturating_sub`, which is truncated subtraction on `Nat`. -/
def compute_seo_score (issues : List SeoIssue) : Nat :=
  100 - (issues.map SeoIssue.penalty).sum % 65536

/-! ## Fetch concurrency (src/app/data_io.rs, src/app/runtime.rs, src/app/crawl.rs) -/

/-- `MAX_FETCH_CONCURRENCY` (src/app/data_io.rs). -/
def MAX_FETCH_CONCURRENCY : Nat := 256

/-- `sanitize_fetch_concurrency` (src/app/data_io.rs):
`value.max(1).min(MAX_FETCH_CONCURRENCY)`. -/
def sanitize_fetch_concurrency (value : Nat) : Nat :=
  min (max value 1) MAX_FETCH_CONCURRENCY

/-- `current_fetch_concurrency` (src/app/runtime.rs): the pool reads the
atomic cell and sanitizes the loaded value before every spawn. -/
def current_fetch_concurrency (stored : Nat) : Nat :=
  sanitize_fetch_concurrency stored

/-- Value of the `fetch_concurrency` atomic cell after the control task
(src/app/crawl.rs, `SetFetchConcurrency` arm) has processed a sequence of
`SetFetchConcurrency` arguments: each store writes the sanitized value. -/
def applyConcurrencyCommands (init : Nat) (cmds : List Nat) : Nat :=
  cmds.foldl (fun _ v => sanitize_fetch_concurrency v) init

/-! ## Dashboard state (src/app/types.rs `AppState`) -/

/-- One dataset row (`struct CrawlRow`); machine integers are modelled as
unbounded naturals. -/
structure CrawlRow where
  url : String
  status : Nat
  mime : String
  retrieval_status : String
  indexability : String
  title : String
  title_length : Nat
  meta : String
  meta_length : Nat
  h1 : String
  canonical : String
  word_count : Nat
  size : Nat
  response_time : Nat
  last_modified : String
  redirect_url : String
  redirect_type : String
  link_count : Nat
  internal_link_count : Nat
  external_link_count : Nat
  h1_count : Nat
  h2_count : Nat
  image_count : Nat
  image_missing_alt_count : Nat
  structured_data_count : Nat
  seo_score : Nat
  issues : List SeoIssue
  crawl_timestamp : String
deriving DecidableEq, Repr

/-- Set insertion for a `HashSet` modelled as a duplicate-free list. -/
def insertSet {α : Type} [DecidableEq α] (s : List α) (a : α) : List α :=
  if a ∈ s then s else s ++ [a]

/-- `HashMap<_, usize>` counter bump (`*map.entry(k).or_insert(0) += 1`). -/
def bumpCount {α : Type} [DecidableEq α] : List (α × Nat) → α → List (α × Nat)
  | [], k => [(k, 1)]
  | (k', v) :: rest, k =>
    if k' = k then (k', v + 1) :: rest else (k', v) :: bumpCount rest k

/-- `HashMap::insert` (replace value at key). -/
def mapInsert {α : Type} : List (String × α) → String → α → List (String × α)
  | [], k, v => [(k, v)]
  | (k', v') :: rest, k, v =>
    if k' = k then (k, v) :: rest else (k', v') :: mapInsert rest k v

/-- `map.entry(k).or_default().insert(v)` for `HashMap<String, HashSet<String>>`. -/
def mapSetInsert : List (String × List String) → String → String → List (String × List String)
  | [], k, v => [(k, [v])]
  | (k', s) :: rest, k, v =>
    if k' = k then (k', insertSet s v) :: rest else (k', s) :: mapSetInsert rest k v

/-- First-occurrence deduplication, as performed with a scratch `HashSet`. -/
def dedupFirstAux {α : Type} [DecidableEq α] (seen : List α) : List α → List α
  | [] => []
  | x :: xs => if x ∈ seen then dedupFirstAux seen xs else x :: dedupFirstAux (x :: seen) xs

/-- First-occurrence deduplication of a list. -/
def dedupFirst {α : Type} [DecidableEq α] (l : List α) : List α := dedupFirstAux [] l

/-- `struct AppState` (src/app/types.rs); hash maps and sets are modelled as
association lists and duplicate-free lists, `VecDeque` front is the list head. -/
structure AppState where
  parsed : Nat
  discovered_targets : Nat
  all_rows : List CrawlRow
  rows : List CrawlRow
  seen : List String
  discovered_seen : List String
  incoming_links : List (String × List String)
  outgoing_links : List (String × List String)
  done : Bool
  errors : List String
  status_messages : List String
  status_counts : List (Nat × Nat)
  issue_counts : List (SeoIssue × Nat)
  title_counts : List (String × Nat)
  meta_counts : List (String × Nat)
deriving DecidableEq, Repr

/-- `AppState::default()`. -/
def AppState.default : AppState :=
  ⟨0, 0, [], [], [], [], [], [], false, [], [], [], [], [], []⟩

/-- `AppState::push_row` (src/app/types.rs).  Returns the `inserted` flag
together with the updated state. -/
def AppState.push_row (s : AppState) (row : CrawlRow) (discovered_links : List String) :
    Bool × AppState :=
  let dedup_outgoing := dedupFirst discovered_links
  let incoming' := discovered_links.foldl
    (fun m link => if link ≠ row.url then mapSetInsert m link row.url else m)
    s.incoming_links
  let discovered' := discovered_links.foldl insertSet s.discovered_seen
  if row.url ∈ s.seen then
    (false, { s with incoming_links := incoming', discovered_seen := discovered' })
  else
    (true,
      { s with
        incoming_links := incoming'
        discovered_seen := discovered'
        seen := s.seen ++ [row.url]
        outgoing_links := mapInsert s.outgoing_links row.url dedup_outgoing
        status_counts := bumpCount s.status_counts row.status
        issue_counts := row.issues.foldl bumpCount s.issue_counts
        title_counts :=
          if row.title ≠ "" then bumpCount s.title_counts (trimLower row.title)
          else s.title_counts
        meta_counts :=
          if row.meta ≠ "" ∧ row.retrieval_status = "retrieved" then
            bumpCount s.meta_counts (trimLower row.meta)
          else s.meta_counts
        parsed := s.parsed + 1
        all_rows := s.all_rows ++ [row]
        rows := (row :: s.rows).take 500 })

/-- `AppState::push_error` (error list capped at 10, newest first). -/
def AppState.push_error (s : AppState) (error : String) : AppState :=
  { s with errors := (error :: s.errors).take 10 }

/-- `AppState::push_status` (status list capped at 20, newest first). -/
def AppState.push_status (s : AppState) (message : String) : AppState :=
  { s with status_messages := (message :: s.status_messages).take 20 }

/-- Model of `Utc::now().to_rfc3339()`: wall-clock time is not modelled, the
timestamp is an uninterpreted constant. -/
def crawlTimestampModel : String := ""

/-- `unretrieved_row` (src/app/crawl.rs). -/
def unretrieved_row (url reason : String) : CrawlRow :=
  { url := url
    status := 0
    mime := "unknown"
    retrieval_status := "not_retrieved"
    indexability := "Not Retrieved"
    title := ""
    title_length := 0
    meta := reason
    meta_length := reason.length
    h1 := ""
    canonical := ""
    word_count := 0
    size := 0
    response_time := 0
    last_modified := ""
    redirect_url := ""
    redirect_type := ""
    link_count := 0
    internal_link_count := 0
    external_link_count := 0
    h1_count := 0
    h2_count := 0
    image_count := 0
    image_missing_alt_count := 0
    structured_data_count := 0
    seo_score := compute_seo_score [SeoIssue.NotRetrieved]
    issues := [SeoIssue.NotRetrieved]
    crawl_timestamp := crawlTimestampModel }

/-- `enum CrawlEvent` (src/app/types.rs). -/
inductive CrawlEvent where
  | Page (row : CrawlRow) (discovered_links : List String)
  | Unretrieved (url reason : String)
  | Stats (discovered : Nat)
  | Finished
  | Status (message : String)
  | Error (err : String)
deriving DecidableEq, Repr

/-- `handle_crawl_event` (src/app/runtime.rs).  The output sink is modelled
as the list of rows written so far; `sink.write_row` appends one entry and is
called exactly when `push_row` returned `true`. -/
def handle_crawl_event (state : AppState) (sink : List (CrawlRow × List String))
    (event : CrawlEvent) : AppState × List (CrawlRow × List String) :=
  match event with
  | .Page row discovered_links =>
    let r := state.push_row row discovered_links
    (r.2, if r.1 then sink ++ [(row, discovered_links)] else sink)
  | .Unretrieved url reason =>
    let row := unretrieved_row url reason
    let r := state.push_row row []
    (r.2, if r.1 then sink ++ [(row, [])] else sink)
  | .Stats discovered =>
    ({ state with discovered_targets := max state.discovered_targets discovered }, sink)
  | .Finished => ({ state with done := true }, sink)
  | .Status message => (state.push_status message, sink)
  | .Error err => (state.push_error err, sink)

/-! ## URL model

Model of the `url` crate (`Url::parse`, `Url::to_string`, `query_pairs`,
`form_urlencoded::Serializer`) on a restricted, all-ASCII fragment of the
WHATWG grammar: `scheme://host[:port]path[?query][#fragment]`, no userinfo,
no IP-literal hosts, no characters that the real parser would have to
percent-encode, and no `.`/`..` path segments.  Inputs outside the fragment
are treated as unparseable. -/

/-- Does the first list occur at the start of the second? -/
def startsWithCh : List Char → List Char → Bool
  | [], _ => true
  | _ :: _, [] => false
  | p :: ps, c :: cs => p == c && startsWithCh ps cs

/-- Characters allowed in a scheme after the first letter. -/
def isSchemeChar (c : Char) : Bool := isAlphaNumC c || c == '+' || c == '-' || c == '.'

/-- Characters allowed in a host name. -/
def isHostChar (c : Char) : Bool := isAlphaNumC c || c == '-' || c == '.' || c == '_'

/-- Characters the WHATWG serializer keeps verbatim in a path
(RFC 3986 `pchar` plus `/` and `%`). -/
def isPathChar (c : Char) : Bool :=
  isAlphaNumC c ||
    (['-', '.', '_', '~', '!', '$', '&', '\'', '(', ')', '*', '+', ',', '/',
      ':', ';', '=', '@', '%'] : List Char).contains c

/-- Raw query characters: printable ASCII except `#`. -/
def isQueryChar (c : Char) : Bool := 32 ≤ c.toNat && c.toNat ≤ 126 && !(c == '#')

/-- ASCII hex digit. -/
def isHexC (c : Char) : Bool :=
  isDigitC c || (65 ≤ c.toNat && c.toNat ≤ 70) || (97 ≤ c.toNat && c.toNat ≤ 102)

/-- Value of a hex digit. -/
def hexVal (c : Char) : Nat :=
  if isDigitC c then c.toNat - 48 else if c.toNat ≤ 70 then c.toNat - 55 else c.toNat - 87

/-- Uppercase hex digit character for `d < 16`. -/
def hexDigitUpper (d : Nat) : Char :=
  if d < 10 then digitChar d else Char.ofNat (55 + d)

/-- Fuel-bounded escape check (structural recursion so that concrete values
reduce in the kernel; `l.length` units of fuel always suffice). -/
def escapesOkAux : Nat → List Char → Bool
  | 0, _ => true
  | _ + 1, [] => true
  | fuel + 1, c :: rest =>
    if c == '%' then
      2 ≤ rest.length && isHexC (rest.headD ' ') && isHexC ((rest.drop 1).headD ' ') &&
        hexVal (rest.headD ' ') < 8 && escapesOkAux fuel (rest.drop 2)
    else escapesOkAux fuel rest

/-- Every `%` escape is two hex digits denoting an ASCII byte (the modelled
fragment excludes escapes of non-ASCII bytes and stray `%`). -/
def escapesOk (l : List Char) : Bool := escapesOkAux l.length l

/-- Fuel-bounded percent-decoding (structural recursion; `l.length` units of
fuel always suffice). -/
def percentDecodeAux : Nat → List Char → List Char
  | 0, _ => []
  | _ + 1, [] => []
  | fuel + 1, c :: rest =>
    if c == '%' && 2 ≤ rest.length && isHexC (rest.headD ' ') &&
        isHexC ((rest.drop 1).headD ' ') then
      Char.ofNat (16 * hexVal (rest.headD ' ') + hexVal ((rest.drop 1).headD ' ')) ::
        percentDecodeAux fuel (rest.drop 2)
    else c :: percentDecodeAux fuel rest

/-- Percent-decoding as performed by `form_urlencoded` (invalid escapes keep
the `%` literally). -/
def percentDecode (l : List Char) : List Char := percentDecodeAux l.length l

/-- `form_urlencoded` decoding of one key or value: `+` means space, then
percent-decode. -/
def decodePiece (l : List Char) : List Char :=
  percentDecode (l.map fun c => if c == '+' then ' ' else c)

/-- Characters `form_urlencoded::Serializer` emits verbatim. -/
def isFormSafe (c : Char) : Bool :=
  isAlphaNumC c || c == '*' || c == '-' || c == '.' || c == '_'

/-- `form_urlencoded` encoding of one character. -/
def formEncodeChar (c : Char) : List Char :=
  if isFormSafe c then [c]
  else if c == ' ' then ['+']
  else ['%', hexDigitUpper (c.toNat / 16), hexDigitUpper (c.toNat % 16)]

/-- `form_urlencoded` encoding of a key or value. -/
def formEncode (l : List Char) : List Char := (l.map formEncodeChar).flatten

/-- Join pieces with a separator character (model of `Vec::join` and of the
`&`-joining of the pair serializer). -/
def joinChar (sep : Char) : List (List Char) → List Char
  | [] => []
  | [x] => x
  | x :: y :: rest => x ++ sep :: joinChar sep (y :: rest)

/-- Split a character list at every occurrence of `sep`. -/
def splitOnChar (sep : Char) : List Char → List (List Char)
  | [] => [[]]
  | c :: cs =>
    if c == sep then [] :: splitOnChar sep cs
    else
      match splitOnChar sep cs with
      | [] => [[c]]
      | piece :: rest => (c :: piece) :: rest

/-- `url.query_pairs()`: split the raw query on `&`, skip empty pieces,
split each piece at the first `=`, decode key and value. -/
def parseQueryPairsCh (cs : List Char) : List (List Char × List Char) :=
  (splitOnChar '&' cs).filterMap fun piece =>
    if piece = [] then none
    else
      let k := piece.takeWhile fun c => !(c == '=')
      let vr := piece.dropWhile fun c => !(c == '=')
      let v := match vr with | [] => ([] : List Char) | _ :: tl => tl
      some (decodePiece k, decodePiece v)

/-- `form_urlencoded::Serializer` over a pair list: `k=v` joined with `&`. -/
def serializePairsCh (ps : List (List Char × List Char)) : List Char :=
  joinChar '&' (ps.map fun kv => formEncode kv.1 ++ '=' :: formEncode kv.2)

/-- Parsed URL (modelled fragment). -/
structure UrlM where
  scheme : String
  host : String
  port : Option Nat
  path : String
  query : Option String
  fragment : Option String
deriving DecidableEq, Repr

/-- Parse `host[:port]`; rejects userinfo and IP literals. -/
def parseAuthority (auth : List Char) : Option (List Char × Option Nat) :=
  if auth.contains '@' || auth.contains '[' || auth.contains ']' then none
  else
    let host := auth.takeWhile fun c => !(c == ':')
    let rest := auth.dropWhile fun c => !(c == ':')
    if host = [] ∨ ¬ host.all isHostChar then none
    else
      match rest with
      | [] => some (host, none)
      | _ :: ds =>
        if ds ≠ [] ∧ ds.all isDigitC ∧ foldDigits ds < 65536 then
          some (host, some (foldDigits ds))
        else none

/-- Default ports are dropped from the parsed form, as `Url` does. -/
def dropDefaultPort (scheme : List Char) (port : Option Nat) : Option Nat :=
  match port with
  | none => none
  | some p =>
    if (scheme = "http".data ∧ p = 80) ∨ (scheme = "https".data ∧ p = 443) then none
    else some p

/-- No `.` or `..` path segment (the real parser would rewrite them). -/
def noDotSegments (p : List Char) : Bool :=
  (splitOnChar '/' p).all fun seg => !(seg == ['.']) && !(seg == ['.', '.'])

/-- Valid modelled path. -/
def pathOk (p : List Char) : Bool := p.all isPathChar && noDotSegments p

/-- Valid modelled raw query. -/
def queryOk (q : List Char) : Bool := q.all isQueryChar && escapesOk q

/-- Parse query-then-fragment after the `?`. -/
def parseQF (pa : List Char) (qf : List Char) :
    Option (List Char × Option (List Char) × Option (List Char)) :=
  let q := qf.takeWhile fun c => !(c == '#')
  let r4 := qf.dropWhile fun c => !(c == '#')
  if queryOk q then
    match r4 with
    | [] => some (pa, some q, none)
    | '#' :: f => some (pa, some q, some f)
    | _ => none
  else none

/-- Parse `path[?query][#fragment]`; an absent path serializes as `/`. -/
def parseTail (rest : List Char) :
    Option (List Char × Option (List Char) × Option (List Char)) :=
  match rest with
  | [] => some (['/'], none, none)
  | '?' :: qf => parseQF ['/'] qf
  | '#' :: f => some (['/'], none, some f)
  | '/' :: _ =>
    let pa := rest.takeWhile fun c => !(c == '?') && !(c == '#')
    let r3 := rest.dropWhile fun c => !(c == '?') && !(c == '#')
    if pathOk pa then
      match r3 with
      | [] => some (pa, none, none)
      | '?' :: qf => parseQF pa qf
      | '#' :: f => some (pa, none, some f)
      | _ => none
    else none
  | _ => none

/-- Model of `Url::parse` on the restricted fragment. -/
def parseUrl (s : String) : Option UrlM :=
  let cs := s.data
  let schemeCs := cs.takeWhile fun c => !(c == ':')
  let rest := cs.dropWhile fun c => !(c == ':')
  match rest with
  | ':' :: '/' :: '/' :: r =>
    if schemeCs ≠ [] ∧ schemeCs.all isSchemeChar ∧ isAlphaC (schemeCs.headD 'a') then
      let auth := r.takeWhile fun c => !(c == '/') && !(c == '?') && !(c == '#')
      let rest2 := r.dropWhile fun c => !(c == '/') && !(c == '?') && !(c == '#')
      match parseAuthority auth with
      | none => none
      | some (host, port) =>
        match parseTail rest2 with
        | none => none
        | some (pa, q, fr) =>
          some
            { scheme := ⟨lowerCh schemeCs⟩
              host := ⟨lowerCh host⟩
              port := dropDefaultPort (lowerCh schemeCs) port
              path := ⟨pa⟩
              query := q.map fun l => (⟨l⟩ : String)
              fragment := fr.map fun l => (⟨l⟩ : String) }
    else none
  | _ => none

/-- The port part of a rendered URL. -/
def portTail : Option Nat → List Char
  | none => []
  | some p => ':' :: natDigits p

/-- The query part of a rendered URL, with the query given as characters. -/
def queryTail : Option (List Char) → List Char
  | none => []
  | some qc => '?' :: qc

/-- Model of `Url::to_string` (the crate re-serializes the parsed parts). -/
def UrlM.render (u : UrlM) : List Char :=
  u.scheme.data ++ (':' :: '/' :: '/' :: u.host.data) ++
    portTail u.port ++
    u.path.data ++
    (match u.query with | none => [] | some q => '?' :: q.data) ++
    (match u.fragment with | none => [] | some f => '#' :: f.data)

/-- String form of a modelled URL. -/
def UrlM.toStr (u : UrlM) : String := ⟨u.render⟩

/-- Exact tracking-parameter names (src/app/crawl.rs, `is_tracking_query_param`). -/
def trackingExactNames : List (List Char) :=
  ["gclid".data, "fbclid".data, "gbraid".data, "wbraid".data, "_gl".data,
   "mc_cid".data, "mc_eid".data, "pk_campaign".data, "pk_kwd".data,
   "pk_source".data, "pk_medium".data, "pk_content".data]

/-- `is_tracking_query_param` (src/app/crawl.rs). -/
def is_tracking_query_param (param : List Char) : Bool :=
  let name := lowerCh param
  startsWithCh "utm_".data name || startsWithCh "gad_".data name ||
    trackingExactNames.contains name

/-- The decoded query pairs of a parsed URL (`url.query_pairs()`). -/
def queryPairsOf (u : UrlM) : List (List Char × List Char) :=
  match u.query with
  | none => []
  | some q => parseQueryPairsCh q.data

/-- `normalize_crawl_url` (src/app/crawl.rs): trim, parse, require an
http(s) scheme, drop tracking query parameters, re-serialize the remaining
pairs, drop the fragment. -/
def normalize_crawl_url (raw : String) : Option String :=
  let trimmed := rustTrim raw
  if trimmed.data = [] then none
  else
    match parseUrl trimmed with
    | none => none
    | some url =>
      let scheme := lowerCh url.scheme.data
      if ¬ (scheme = "http".data ∨ scheme = "https".data) then none
      else
        let kept := (queryPairsOf url).filter fun kv => !is_tracking_query_param kv.1
        let query' :=
          if kept = [] then none else some (⟨serializePairsCh kept⟩ : String)
        some (UrlM.toStr { url with query := query', fragment := none })

/-- Port constraint of a canonical URL: within `u16` range and not the
scheme default (the parser has already dropped defaults). -/
def portCanon (scheme : String) : Option Nat → Prop
  | none => True
  | some p => p < 65536 ∧ dropDefaultPort scheme.data (some p) = some p

/-- All-ASCII decoded query pairs. -/
def pairsAscii (ps : List (List Char × List Char)) : Prop :=
  ∀ kv ∈ ps, (∀ c ∈ kv.1, c.toNat < 128) ∧ (∀ c ∈ kv.2, c.toNat < 128)

/-- Canonical query component: absent, or the serialization of a non-empty
ASCII pair list without tracking keys. -/
def queryCanon : Option String → Prop
  | none => True
  | some q =>
    ∃ ps : List (List Char × List Char), ps ≠ [] ∧ pairsAscii ps ∧
      (∀ kv ∈ ps, is_tracking_query_param kv.1 = false) ∧
      q.data = serializePairsCh ps

/-- The shape of every URL the normalizer outputs. -/
def IsCanonical (u : UrlM) : Prop :=
  (u.scheme = "http" ∨ u.scheme = "https") ∧
    u.host.data ≠ [] ∧ u.host.data.all isHostChar = true ∧
    lowerCh u.host.data = u.host.data ∧
    portCanon u.scheme u.port ∧
    (∃ t, u.path.data = '/' :: t) ∧ pathOk u.path.data = true ∧
    queryCanon u.query ∧
    u.fragment = none

/-- `is_same_host` (src/app/crawl.rs). -/
def is_same_host (candidate : String) (root_host : Option String) : Bool :=
  match root_host with
  | none => true
  | some root =>
    match parseUrl candidate with
    | none => false
    | some u => lowerCh u.host.data == lowerCh root.data

/-- Model of `Url::join` restricted to absolute http(s) references,
root-relative (`/...`), query-only (`?...`) and directory-relative
references; dot segments are left to the parser, which rejects them. -/
def urlJoin (base href : String) : Option String :=
  if startsWithCh "http://".data href.data ∨ startsWithCh "https://".data href.data then
    some href
  else
    match parseUrl base with
    | none => none
    | some b =>
      let originCs := b.scheme.data ++ (':' :: '/' :: '/' :: b.host.data) ++
        (match b.port with | none => [] | some p => ':' :: natDigits p)
      match href.data with
      | '/' :: _ => some ⟨originCs ++ href.data⟩
      | '?' :: _ => some ⟨originCs ++ b.path.data ++ href.data⟩
      | _ =>
        let dir := (b.path.data.reverse.dropWhile fun c => !(c == '/')).reverse
        some ⟨originCs ++ dir ++ href.data⟩

/-- `resolve_href` (src/app/crawl.rs). -/
def resolve_href (page_url href : String) : Option String :=
  if href.data = [] ∨ startsWithCh "#".data href.data ∨
      startsWithCh "mailto:".data href.data ∨
      startsWithCh "javascript:".data href.data ∨
      startsWithCh "tel:".data href.data then none
  else
    let resolved :=
      if startsWithCh "http://".data href.data ∨ startsWithCh "https://".data href.data then
        some href
      else urlJoin page_url href
    match resolved with
    | none => none
    | some r => normalize_crawl_url r

/-- `filter_crawlable_links` (src/app/crawl.rs): normalize, keep same-host,
deduplicate keeping first occurrences (the source uses a scratch `HashSet`). -/
def filter_crawlable_links (links : List String) (root_host : Option String) : List String :=
  dedupFirst (links.filterMap fun link =>
    match normalize_crawl_url link with
    | none => none
    | some n => if is_same_host n root_host then some n else none)

/-- `extract_crawl_links_with_breakdown` (src/app/crawl.rs): the document is
modelled by the list of raw `href` attribute values its link selector
yields, in document order.  Internal/external counters are incremented for
every resolvable href, deduplication applies only to the returned list. -/
def extractLinksAux (page_url : String) (root_host : Option String) (seen : List String) :
    List String → List String × Nat × Nat
  | [] => ([], 0, 0)
  | href :: rest =>
    match resolve_href page_url (rustTrim href) with
    | none => extractLinksAux page_url root_host seen rest
    | some resolved =>
      let seen' := if resolved ∈ seen then seen else resolved :: seen
      let r := extractLinksAux page_url root_host seen' rest
      let out := if resolved ∈ seen then r.1 else resolved :: r.1
      if is_same_host resolved root_host then (out, r.2.1 + 1, r.2.2)
      else (out, r.2.1, r.2.2 + 1)

/-- `extract_crawl_links_with_breakdown` (src/app/crawl.rs). -/
def extract_crawl_links_with_breakdown (hrefs : List String) (page_url : String)
    (root_host : Option String) : List String × Nat × Nat :=
  extractLinksAux page_url root_host [] hrefs

/-- The link-related fields of `page_to_row` (src/app/crawl.rs): the page's
fetcher-provided links and the document links are concatenated and
deduplicated to form `discovered_links`, whose length becomes `link_count`;
the internal/external counts come from the breakdown.  Returns
`(link_count, internal_link_count, external_link_count)`. -/
def page_to_row_link_counts (page_links hrefs : List String) (page_url : String)
    (root_host : Option String) : Nat × Nat × Nat :=
  let r := extract_crawl_links_with_breakdown hrefs page_url root_host
  ((dedupFirst (page_links ++ r.1)).length, r.2.1, r.2.2)

/-! ## Redirect probe (src/app/crawl.rs `raw_redirect_rows`) -/

/-- `redirect_class` (src/app/ui_utils.rs). -/
def redirect_class (status : Nat) : String :=
  if status = 301 ∨ status = 308 then "Permanent"
  else if status = 302 ∨ status = 303 ∨ status = 307 then "Temporary"
  else if 300 ≤ status ∧ status ≤ 399 then "Redirect"
  else ""

/-- One response of the redirect-disabled probe client.  The network is an
oracle from URL to optional response; `none` models a request error after
the per-hop retries of `send_redirect_probe_request`. -/
structure ProbeResp where
  status : Nat
  location : Option String
  contentType : Option String
  lastModified : Option String
deriving DecidableEq, Repr

/-- MIME from a `Content-Type` header: primary type, trimmed, `"unknown"`
when missing or empty. -/
def mimeOfContentType (ct : Option String) : String :=
  match ct with
  | none => "unknown"
  | some v =>
    let first := rustTrim ⟨v.data.takeWhile fun c => !(c == ';')⟩
    if first.data = [] then "unknown" else first

/-- The hop record built in the loop body of `raw_redirect_rows`
(wall-clock timing and timestamps are not modelled). -/
def redirectHopRow (current : String) (resp : ProbeResp) (resolved_target : String) :
    CrawlRow :=
  { url := current
    status := resp.status
    mime := mimeOfContentType resp.contentType
    retrieval_status := "retrieved"
    indexability := "Non-Indexable"
    title := ""
    title_length := 0
    meta := ""
    meta_length := 0
    h1 := ""
    canonical := ""
    word_count := 0
    size := 0
    response_time := 0
    last_modified := (resp.lastModified.getD "")
    redirect_url := resolved_target
    redirect_type := redirect_class resp.status
    link_count := 1
    internal_link_count := 1
    external_link_count := 0
    h1_count := 0
    h2_count := 0
    image_count := 0
    image_missing_alt_count := 0
    structured_data_count := 0
    seo_score := 100
    issues := []
    crawl_timestamp := crawlTimestampModel }

/-- Resolution of the `Location` header against the current hop URL:
URL-join (falling back to the raw header) followed by normalization
(falling back to the joined value). -/
def redirectTarget (current : String) (resp : ProbeResp) : String :=
  let location_raw := rustTrim (resp.location.getD "")
  let target0 :=
    match urlJoin current location_raw with
    | some t => t
    | none => location_raw
  (normalize_crawl_url target0).getD target0

/-- The loop of `raw_redirect_rows`: at most `fuel` hops, stopping when the
current URL was already visited, the probe fails, the status is not 3xx, or
the `Location` header is missing/empty. -/
def rawRedirectAux (probe : String → Option ProbeResp) :
    Nat → String → List String → List (CrawlRow × List String) × String
  | 0, current, _ => ([], current)
  | fuel + 1, current, seen =>
    if current ∈ seen then ([], current)
    else
      match probe current with
      | none => ([], current)
      | some resp =>
        if ¬ (300 ≤ resp.status ∧ resp.status ≤ 399) then ([], current)
        else if (rustTrim (resp.location.getD "")).data = [] then ([], current)
        else
          let resolved_target := redirectTarget current resp
          let row := redirectHopRow current resp resolved_target
          let r := rawRedirectAux probe fuel resolved_target (current :: seen)
          ((row, [resolved_target]) :: r.1, r.2)

/-- `raw_redirect_rows` (src/app/crawl.rs): normalize the start URL, follow
at most `max(max_hops, 1)` hops, return the hop rows (each paired with its
discovered-links vector) and the final fetch URL. -/
def raw_redirect_rows (probe : String → Option ProbeResp) (start_url : String)
    (max_hops : Nat) : List (CrawlRow × List String) × String :=
  rawRedirectAux probe (max max_hops 1) ((normalize_crawl_url start_url).getD start_url) []

/-- The simple-chain property of a hop list: each hop's `redirect_url` is
the next hop's URL, and the last hop's `redirect_url` is the final URL. -/
def hopChain : List CrawlRow → String → Prop
  | [], _ => True
  | [r], final => r.redirect_url = final
  | r :: r2 :: rest, final => r.redirect_url = r2.url ∧ hopChain (r2 :: rest) final

/-! ## Fallback fetch loop (src/app/crawl.rs `process_single_url`) -/

/-- One fetched page as observed by `process_single_url` (model of
`spider::page::Page::new`, which always yields a page: a transport failure
is a status-0 page with an empty body).  `status` is `page.status_code`,
`size` the body byte count. -/
structure FetchedPage where
  status : Nat
  size : Nat
deriving DecidableEq, Repr

/-- The final event emitted by `process_single_url` after the redirect-hop
events. -/
inductive FinalEvent where
  | Page (status size : Nat)
  | Unretrieved (url reason : String)
deriving DecidableEq, Repr

/-- The inner retry loop (`for attempt in 0..retries`): fetches are an
oracle indexed by a global attempt counter `k`; the loop breaks as soon as a
status below 500 is seen.  Returns the next counter and the last page. -/
def innerLoop (fetch : Nat → FetchedPage) (k : Nat) (st : Option FetchedPage) :
    Nat → Nat × Option FetchedPage
  | 0 => (k, st)
  | n + 1 =>
    let p := fetch k
    if p.status < 500 then (k + 1, some p) else innerLoop fetch (k + 1) (some p) n

/-- The outer requeue loop (`for queue_round in 0..=retry_5xx`): runs the
inner loop, exits when the last status is below 500 or the rounds are
exhausted.  The argument is the number of rounds still allowed after the
current one. -/
def outerLoop (fetch : Nat → FetchedPage) (retries k : Nat) (st : Option FetchedPage) :
    Nat → Nat × Option FetchedPage
  | 0 => innerLoop fetch k st retries
  | r + 1 =>
    let ir := innerLoop fetch k st retries
    let lastStatus := match ir.2 with | some p => p.status | none => 0
    if lastStatus < 500 then ir else outerLoop fetch retries ir.1 ir.2 r

/-- The final event of `process_single_url` (src/app/crawl.rs): after the
loops, a page with status ≥ 500 and an empty body becomes `Unretrieved`
with the formatted reason, any other page becomes `Page`, and no page at
all becomes the fallback `Unretrieved`. -/
def process_single_url_final (fetch : Nat → FetchedPage) (retries retry_5xx : Nat)
    (fetch_url : String) : FinalEvent :=
  let r := max retries 1
  match (outerLoop fetch r 0 none retry_5xx).2 with
  | some p =>
    if p.size = 0 ∧ 500 ≤ p.status then
      .Unretrieved fetch_url
        ("http " ++ natToString p.status ++ " after " ++ natToString r ++
          " retries and " ++ natToString retry_5xx ++ " requeues")
    else .Page p.status p.size
  | none => .Unretrieved fetch_url "fallback fetch could not start"

/-! ## CSV export/import layer (src/app/data_io.rs)

The `csv` crate's quoting is modelled as the identity on a list of cell
strings: `CsvSink::write_row` produces the 31 cells of one record in header
order, and the loader parses such a cell list back (the header written by
the sink is the fixed `CSV_HEADERS`, so each column name resolves to its
fixed position). -/

/-- `issues_to_csv` (src/app/data_io.rs): pipe-joined labels. -/
def issues_to_csv (issues : List SeoIssue) : String :=
  ⟨joinChar '|' (issues.map fun i => i.label.data)⟩

/-- Pipe-join of the outgoing links (`rec.outgoing_links.join("|")`). -/
def joinPipe (links : List String) : String :=
  ⟨joinChar '|' (links.map String.data)⟩

/-- `crawl_quality_bucket` (src/app/data_io.rs). -/
def crawl_quality_bucket (seo_score : Nat) : String :=
  if 85 ≤ seo_score ∧ seo_score ≤ 100 then "excellent"
  else if 70 ≤ seo_score ∧ seo_score ≤ 84 then "good"
  else if 50 ≤ seo_score ∧ seo_score ≤ 69 then "warning"
  else "critical"

/-- `struct ExportRecord` (src/app/data_io.rs). -/
structure ExportRecord where
  url : String
  status : Nat
  mime : String
  retrieval_status : String
  indexability : String
  title : String
  title_length : Nat
  meta : String
  meta_length : Nat
  h1 : String
  canonical : String
  word_count : Nat
  size : Nat
  response_time_ms : Nat
  last_modified : String
  redirect_url : String
  redirect_type : String
  link_count : Nat
  internal_link_count : Nat
  external_link_count : Nat
  h1_count : Nat
  h2_count : Nat
  image_count : Nat
  image_missing_alt_count : Nat
  structured_data_count : Nat
  seo_score : Nat
  issue_count : Nat
  issues : String
  outgoing_links : List String
  crawl_timestamp : String
  crawl_quality_bucket : String
deriving DecidableEq, Repr

/-- `row_to_export_record` (src/app/data_io.rs). -/
def row_to_export_record (row : CrawlRow) (outgoing_links : List String) : ExportRecord :=
  { url := row.url
    status := row.status
    mime := row.mime
    retrieval_status := row.retrieval_status
    indexability := row.indexability
    title := row.title
    title_length := row.title_length
    meta := row.meta
    meta_length := row.meta_length
    h1 := row.h1
    canonical := row.canonical
    word_count := row.word_count
    size := row.size
    response_time_ms := row.response_time
    last_modified := row.last_modified
    redirect_url := row.redirect_url
    redirect_type := row.redirect_type
    link_count := row.link_count
    internal_link_count := row.internal_link_count
    external_link_count := row.external_link_count
    h1_count := row.h1_count
    h2_count := row.h2_count
    image_count := row.image_count
    image_missing_alt_count := row.image_missing_alt_count
    structured_data_count := row.structured_data_count
    seo_score := row.seo_score
    issue_count := row.issues.length
    issues := issues_to_csv row.issues
    outgoing_links := outgoing_links
    crawl_timestamp := row.crawl_timestamp
    crawl_quality_bucket := crawl_quality_bucket row.seo_score }

/-- `export_record_to_row` (src/app/data_io.rs): issues are recovered from
their pipe-joined labels, `NotRetrieved` is supplied for not-retrieved
records without issues, and the score is recomputed exactly when the stored
score is 0 and the issue list is non-empty. -/
def export_record_to_row (record : ExportRecord) : CrawlRow × List String :=
  let issues0 := (splitOnChar '|' record.issues.data).filterMap
    fun l => SeoIssue.from_label ⟨l⟩
  let issues :=
    if issues0 = [] ∧ record.retrieval_status = "not_retrieved" then [SeoIssue.NotRetrieved]
    else issues0
  ({ url := record.url
     status := record.status
     mime := record.mime
     retrieval_status := record.retrieval_status
     indexability := record.indexability
     title := record.title
     title_length := record.title_length
     meta := record.meta
     meta_length := record.meta_length
     h1 := record.h1
     canonical := record.canonical
     word_count := record.word_count
     size := record.size
     response_time := record.response_time_ms
     last_modified := record.last_modified
     redirect_url := record.redirect_url
     redirect_type := record.redirect_type
     link_count := record.link_count
     internal_link_count := record.internal_link_count
     external_link_count := record.external_link_count
     h1_count := record.h1_count
     h2_count := record.h2_count
     image_count := record.image_count
     image_missing_alt_count := record.image_missing_alt_count
     structured_data_count := record.structured_data_count
     seo_score :=
       if record.seo_score = 0 ∧ issues ≠ [] then compute_seo_score issues
       else record.seo_score
     issues := issues
     crawl_timestamp := record.crawl_timestamp },
   record.outgoing_links)

/-- `CsvSink::write_row` (src/app/data_io.rs): the 31 cells of one record,
in `CSV_HEADERS` order. -/
def csv_write_row (rec : ExportRecord) : List String :=
  [rec.url, natToString rec.status, rec.mime, rec.retrieval_status, rec.indexability,
   rec.title, natToString rec.title_length, rec.meta, natToString rec.meta_length,
   rec.h1, rec.canonical, natToString rec.word_count, natToString rec.size,
   natToString rec.response_time_ms, rec.last_modified, rec.redirect_url,
   rec.redirect_type, natToString rec.link_count, natToString rec.internal_link_count,
   natToString rec.external_link_count, natToString rec.h1_count,
   natToString rec.h2_count, natToString rec.image_count,
   natToString rec.image_missing_alt_count, natToString rec.structured_data_count,
   natToString rec.seo_score, natToString rec.issue_count, rec.issues,
   joinPipe rec.outgoing_links, rec.crawl_timestamp, rec.crawl_quality_bucket]

/-- The record-parsing body of `load_rows_from_csv` (src/app/data_io.rs),
specialized to the 31-column header the sink itself writes (so every column
name resolves to its fixed index).  Rows with an empty URL are skipped
(`none`), numeric cells parse with a default, a missing retrieval status is
derived from the status. -/
def load_row_from_cells : List String → Option (CrawlRow × List String)
  | [url, statusC, mimeC, retrievalC, indexabilityC, titleC, titleLenC, metaC,
     metaLenC, h1C, canonicalC, wordC, sizeC, rtC, lastModC, redirUrlC, redirTypeC,
     linkC, internalC, externalC, h1CntC, h2CntC, imgC, imgAltC, structC, scoreC,
     issueCntC, issuesC, outgoingC, tsC, bucketC] =>
    if (rustTrim url).data = [] then none
    else
      let status := (parseNat? statusC).getD 0
      some (export_record_to_row
        { url := url
          status := status
          mime := mimeC
          retrieval_status :=
            if retrievalC = "" then
              if status = 0 then "not_retrieved" else "retrieved"
            else retrievalC
          indexability := indexabilityC
          title_length := (parseNat? titleLenC).getD titleC.length
          title := titleC
          meta_length := (parseNat? metaLenC).getD metaC.length
          meta := metaC
          h1 := h1C
          canonical := canonicalC
          word_count := (parseNat? wordC).getD 0
          size := (parseNat? sizeC).getD 0
          response_time_ms := (parseNat? rtC).getD 0
          last_modified := lastModC
          redirect_url := redirUrlC
          redirect_type := redirTypeC
          link_count := (parseNat? linkC).getD 0
          internal_link_count := (parseNat? internalC).getD 0
          external_link_count := (parseNat? externalC).getD 0
          h1_count := (parseNat? h1CntC).getD 0
          h2_count := (parseNat? h2CntC).getD 0
          image_count := (parseNat? imgC).getD 0
          image_missing_alt_count := (parseNat? imgAltC).getD 0
          structured_data_count := (parseNat? structC).getD 0
          seo_score := (parseNat? scoreC).getD 0
          issue_count := (parseNat? issueCntC).getD 0
          issues := issuesC
          outgoing_links :=
            ((splitOnChar '|' outgoingC.data).map fun l => rustTrim ⟨l⟩).filter
              fun s => ¬ s.data = []
          crawl_timestamp := tsC
          crawl_quality_bucket := bucketC })
  | _ => none

/-! ## JSON sink (src/app/data_io.rs `JsonSink`) -/

/-- `struct JsonSink`: the written file content is modelled as a string. -/
structure JsonSink where
  content : String
  first : Bool
  closed : Bool
deriving DecidableEq, Repr

/-- `JsonSink::new`: writes `[\n` on open. -/
def JsonSink.new : JsonSink := ⟨"[\n", true, false⟩

/-- `JsonSink::write_row`: prefix `,\n` unless first; the serialized record
(`serde_json::to_writer`) is an opaque string argument. -/
def JsonSink.write_row (s : JsonSink) (rec : String) : JsonSink :=
  { content := s.content ++ (if s.first then "" else ",\n") ++ rec
    first := false
    closed := s.closed }

/-- `JsonSink::finalize`: append the closing bracket once. -/
def JsonSink.finalize (s : JsonSink) : JsonSink :=
  if s.closed then s
  else
    { content := s.content ++ (if s.first then "]\n" else "\n]\n")
      first := s.first
      closed := true }

/-- `impl Drop for JsonSink`: the destructor calls `finalize`. -/
def JsonSink.dropSink (s : JsonSink) : JsonSink := s.finalize

/-- Write a sequence of records. -/
def JsonSink.writeAll (s : JsonSink) (recs : List String) : JsonSink :=
  recs.foldl JsonSink.write_row s

/-- Join strings with a separator string. -/
def joinStrSep (sep : String) : List String → String
  | [] => ""
  | [x] => x
  | x :: y :: rest => x ++ sep ++ joinStrSep sep (y :: rest)


/-! ## C6: character-level infrastructure -/

theorem toNat_ofNat_small (n : Nat) (h : n < 55296) : (Char.ofNat n).toNat = n := by
  have hv : n.isValidChar := Or.inl (by omega)
  rw [Char.ofNat, dif_pos hv]
  simp [Char.toNat, Char.ofNatAux, UInt32.toNat, UInt32.ofNatCore]

theorem char_toNat_inj {c d : Char} (h : c.toNat = d.toNat) : c = d :=
  Char.ext (UInt32.ext h)

theorem char_ne_of_toNat_ne {c d : Char} (h : c.toNat ≠ d.toNat) : c ≠ d :=
  fun he => h (congrArg Char.toNat he)

theorem trimCh_eq_self {l : List Char} (h : ∀ c ∈ l, isWsChar c = false) :
    trimCh l = l := by
  have hdrop : ∀ m : List Char, (∀ c ∈ m, isWsChar c = false) → m.dropWhile isWsChar = m := by
    intro m hm
    cases m with
    | nil => rfl
    | cons c cs => simp [List.dropWhile, hm c (by simp)]
  rw [trimCh, hdrop l h, hdrop l.reverse (fun c hc => h c (List.mem_reverse.mp hc)),
    List.reverse_reverse]

theorem lowerChar_toNat_lower {c : Char} (h : 97 ≤ c.toNat ∧ c.toNat ≤ 122 ∨
    48 ≤ c.toNat ∧ c.toNat ≤ 57 ∨ c.toNat = 45 ∨ c.toNat = 46 ∨ c.toNat = 95) :
    lowerChar c = c := by
  rw [lowerChar, if_neg (by omega)]

theorem lowerChar_upper {c : Char} (h : 65 ≤ c.toNat ∧ c.toNat ≤ 90) :
    (lowerChar c).toNat = c.toNat + 32 := by
  rw [lowerChar, if_pos h, toNat_ofNat_small _ (by omega)]

theorem isHostChar_toNat {c : Char} (h : isHostChar c = true) :
    48 ≤ c.toNat ∧ c.toNat ≤ 57 ∨ 65 ≤ c.toNat ∧ c.toNat ≤ 90 ∨
      97 ≤ c.toNat ∧ c.toNat ≤ 122 ∨ c.toNat = 45 ∨ c.toNat = 46 ∨ c.toNat = 95 := by
  simp only [isHostChar, isAlphaNumC, isAlphaC, isUpperC, isLowerC, isDigitC,
    Bool.or_eq_true, Bool.and_eq_true, decide_eq_true_eq, beq_iff_eq] at h
  rcases h with ((((⟨h1, h2⟩ | ⟨h1, h2⟩) | ⟨h1, h2⟩) | he) | he) | he
  · omega
  · omega
  · omega
  · subst he; decide
  · subst he; decide
  · subst he; decide

theorem lowerChar_isHostChar {c : Char} (h : isHostChar c = true) :
    isHostChar (lowerChar c) = true ∧ lowerChar (lowerChar c) = lowerChar c := by
  rcases isHostChar_toNat h with h1 | h1 | h1 | h1 | h1 | h1
  case inr.inl =>
    have hup := lowerChar_upper h1
    constructor
    · simp only [isHostChar, isAlphaNumC, isAlphaC, isUpperC, isLowerC, isDigitC,
        Bool.or_eq_true, Bool.and_eq_true, decide_eq_true_eq]
      omega
    · exact lowerChar_toNat_lower (by omega)
  all_goals
    rw [lowerChar_toNat_lower (by omega)]
    exact ⟨h, lowerChar_toNat_lower (by omega)⟩

theorem lowerCh_all_host {l : List Char} (h : l.all isHostChar = true) :
    (lowerCh l).all isHostChar = true ∧ lowerCh (lowerCh l) = lowerCh l := by
  induction l with
  | nil => simp [lowerCh]
  | cons c cs ih =>
    simp only [List.all_cons, Bool.and_eq_true] at h
    obtain ⟨ih1, ih2⟩ := ih h.2
    obtain ⟨hc1, hc2⟩ := lowerChar_isHostChar h.1
    refine ⟨?_, ?_⟩
    · simp only [lowerCh, List.map_cons, List.all_cons, Bool.and_eq_true]
      exact ⟨hc1, by simpa [lowerCh] using ih1⟩
    · simp only [lowerCh, List.map_cons, List.map_map] at ih2 ⊢
      simp only [hc2, List.cons.injEq, true_and]
      simpa [lowerCh, List.map_map] using ih2

theorem takeWhile_all {p : Char → Bool} :
    ∀ {l : List Char}, (∀ x ∈ l, p x = true) →
      l.takeWhile p = l ∧ l.dropWhile p = []
  | [], _ => ⟨rfl, rfl⟩
  | c :: cs, h => by
    have hc := h c (by simp)
    have := takeWhile_all (fun x hx => h x (List.mem_cons_of_mem _ hx)) (l := cs)
    simp [List.takeWhile, List.dropWhile, hc, this.1, this.2]

theorem takeWhile_middle (p : Char → Bool) (c : Char) (b : List Char)
    (hc : p c = false) :
    ∀ a : List Char, (∀ x ∈ a, p x = true) →
      (a ++ c :: b).takeWhile p = a ∧ (a ++ c :: b).dropWhile p = c :: b
  | [], _ => by simp [List.takeWhile, List.dropWhile, hc]
  | x :: xs, h => by
    have hx := h x (by simp)
    have := takeWhile_middle p c b hc xs (fun y hy => h y (List.mem_cons_of_mem _ hy))
    simp [List.takeWhile, List.dropWhile, hx, this.1, this.2]

theorem hexDigitUpper_toNat {n : Nat} (h : n < 16) :
    (hexDigitUpper n).toNat = if n < 10 then 48 + n else 55 + n := by
  rw [hexDigitUpper]
  by_cases h10 : n < 10
  · rw [if_pos h10, if_pos h10, digitChar, toNat_ofNat_small _ (by omega)]
  · rw [if_neg h10, if_neg h10, toNat_ofNat_small _ (by omega)]

theorem isHexC_hexDigitUpper {n : Nat} (h : n < 16) :
    isHexC (hexDigitUpper n) = true := by
  have hup := hexDigitUpper_toNat h
  simp only [isHexC, isDigitC, Bool.or_eq_true, Bool.and_eq_true, decide_eq_true_eq]
  by_cases h10 : n < 10
  · rw [if_pos h10] at hup
    omega
  · rw [if_neg h10] at hup
    omega

theorem hexVal_hexDigitUpper {n : Nat} (h : n < 16) :
    hexVal (hexDigitUpper n) = n := by
  have := hexDigitUpper_toNat h
  rw [hexVal]
  by_cases h10 : n < 10
  · rw [if_pos h10] at this
    rw [if_pos (by simp only [isDigitC, Bool.and_eq_true, decide_eq_true_eq]; omega)]
    omega
  · rw [if_neg h10] at this
    rw [if_neg (by simp only [isDigitC, Bool.and_eq_true, decide_eq_true_eq]; omega),
      if_pos (by omega)]
    omega

end Gh0st

namespace Gh0st

theorem digitVal_digitChar {d : Nat} (h : d < 10) : digitVal (digitChar d) = d := by
  interval_cases d <;> decide

theorem isDigit_digitChar {d : Nat} (h : d < 10) : isDigitC (digitChar d) = true := by
  interval_cases d <;> decide

theorem foldDigits_append_one (l : List Char) (c : Char) :
    foldDigits (l ++ [c]) = (foldDigits l) * 10 + digitVal c := by
  simp [foldDigits, List.foldl_append]

theorem foldDigits_natDigitsAux :
    ∀ (fuel n : Nat), n < fuel → foldDigits (natDigitsAux fuel n) = n
  | 0, n, h => by omega
  | fuel + 1, n, h => by
    rw [natDigitsAux]
    by_cases h10 : n < 10
    · simp [h10, foldDigits, digitVal_digitChar h10]
    · rw [if_neg h10, foldDigits_append_one,
        foldDigits_natDigitsAux fuel (n / 10) (by omega),
        digitVal_digitChar (Nat.mod_lt _ (by omega))]
      omega

theorem foldDigits_natDigits (n : Nat) : foldDigits (natDigits n) = n :=
  foldDigits_natDigitsAux (n + 1) n (by omega)

theorem natDigits_ne_nil (n : Nat) : natDigits n ≠ [] := by
  rw [natDigits, natDigitsAux]
  by_cases h : n < 10 <;> simp [h]

theorem natDigitsAux_all_digit :
    ∀ (fuel n : Nat), n < fuel → (natDigitsAux fuel n).all isDigitC = true
  | 0, n, h => by omega
  | fuel + 1, n, h => by
    rw [natDigitsAux]
    by_cases h10 : n < 10
    · simp [h10, isDigit_digitChar h10]
    · rw [if_neg h10]
      simp [natDigitsAux_all_digit fuel (n / 10) (by omega),
        isDigit_digitChar (Nat.mod_lt _ (by omega))]

theorem natDigits_all_digit (n : Nat) : (natDigits n).all isDigitC = true :=
  natDigitsAux_all_digit (n + 1) n (by omega)

theorem parseNatCh_natDigits (n : Nat) : parseNatCh (natDigits n) = some n := by
  simp [parseNatCh, natDigits_ne_nil, natDigits_all_digit, foldDigits_natDigits]

theorem parseNat?_natToString (n : Nat) : parseNat? (natToString n) = some n :=
  parseNatCh_natDigits n

/-! ## C3: SEO score -/

/-- C3: for every list of SEO issues (whose penalty sum stays in `u16`
range, which holds for every issue list the analyzer builds), the SEO score
is `max(0, 100 − Σ penalties)`, clamped to `0..=100`, and every penalty of
the closed vocabulary has exactly the listed value. -/
theorem C3_seo_score (issues : List SeoIssue)
    (h : (issues.map SeoIssue.penalty).sum ≤ 65535) :
    (compute_seo_score issues : Int) =
        max 0 (100 - ((issues.map SeoIssue.penalty).sum : Int)) ∧
      compute_seo_score issues ≤ 100 ∧
      (SeoIssue.NotRetrieved.penalty = 70 ∧ SeoIssue.Http5xx.penalty = 65 ∧
        SeoIssue.Http4xx.penalty = 40 ∧ SeoIssue.MissingTitle.penalty = 25 ∧
        SeoIssue.Noindex.penalty = 20 ∧ SeoIssue.MissingMetaDescription.penalty = 20 ∧
        SeoIssue.MissingH1.penalty = 14 ∧ SeoIssue.TitleTooShort.penalty = 10 ∧
        SeoIssue.MissingCanonical.penalty = 10 ∧ SeoIssue.LowWordCount.penalty = 10 ∧
        SeoIssue.TitleTooLong.penalty = 8 ∧ SeoIssue.MetaDescriptionTooShort.penalty = 8 ∧
        SeoIssue.MetaDescriptionTooLong.penalty = 8 ∧ SeoIssue.MultipleH1.penalty = 8 ∧
        SeoIssue.ImagesMissingAlt.penalty = 8 ∧ SeoIssue.TooManyExternalLinks.penalty = 6) := by
  refine ⟨?_, ?_, by decide⟩
  · rw [compute_seo_score,
      Nat.mod_eq_of_lt (by omega : (issues.map SeoIssue.penalty).sum < 65536)]
    omega
  · rw [compute_seo_score]
    omega

/-- Witness for C3 at a concrete issue list. -/
theorem C3_seo_score_witness :
    (compute_seo_score [SeoIssue.Http4xx, SeoIssue.MissingTitle] : Int) =
      max 0 (100 -
        (([SeoIssue.Http4xx, SeoIssue.MissingTitle].map SeoIssue.penalty).sum : Int)) :=
  (C3_seo_score [SeoIssue.Http4xx, SeoIssue.MissingTitle] (by decide)).1

/-! ## C9: fetch concurrency bounds -/

/-- C9: whatever `SetFetchConcurrency` arguments the control task has
stored (each store writes the sanitized value, and the initial cell value is
sanitized too), the concurrency the pool observes before a spawn is always
in `1..=256`. -/
theorem C9_fetch_concurrency_bounds (init : Nat) (cmds : List Nat) :
    1 ≤ current_fetch_concurrency
        (applyConcurrencyCommands (sanitize_fetch_concurrency init) cmds) ∧
      current_fetch_concurrency
        (applyConcurrencyCommands (sanitize_fetch_concurrency init) cmds) ≤ 256 := by
  constructor <;>
    simp [current_fetch_concurrency, sanitize_fetch_concurrency, MAX_FETCH_CONCURRENCY] <;>
    omega

/-! ## C10: frame effect of `push_row` on a seen URL -/

/-- C10: pushing a row whose URL is already in `seen` returns `false` and
changes nothing except `discovered_seen` (gains the passed links) and
`incoming_links` (gains the row's URL as a source for each link different
from the row's URL). -/
theorem C10_push_row_frame (s : AppState) (row : CrawlRow) (links : List String)
    (h : row.url ∈ s.seen) :
    (s.push_row row links).1 = false ∧
      ((s.push_row row links).2.all_rows = s.all_rows ∧
        (s.push_row row links).2.rows = s.rows ∧
        (s.push_row row links).2.parsed = s.parsed ∧
        (s.push_row row links).2.seen = s.seen ∧
        (s.push_row row links).2.outgoing_links = s.outgoing_links ∧
        (s.push_row row links).2.status_counts = s.status_counts ∧
        (s.push_row row links).2.issue_counts = s.issue_counts ∧
        (s.push_row row links).2.title_counts = s.title_counts ∧
        (s.push_row row links).2.meta_counts = s.meta_counts) ∧
      (s.push_row row links).2.discovered_seen = links.foldl insertSet s.discovered_seen ∧
      (s.push_row row links).2.incoming_links =
        links.foldl
          (fun m link => if link ≠ row.url then mapSetInsert m link row.url else m)
          s.incoming_links := by
  simp [AppState.push_row, h]

/-- Witness for C10 at a concrete state whose `seen` already holds the URL. -/
theorem C10_push_row_frame_witness :
    (unretrieved_row "https://e.test/" "x").url ∈
        ({ AppState.default with seen := ["https://e.test/"] } : AppState).seen ∧
      (({ AppState.default with seen := ["https://e.test/"] } : AppState).push_row
          (unretrieved_row "https://e.test/" "x") ["https://e.test/a"]).1 = false :=
  ⟨by decide,
    (C10_push_row_frame { AppState.default with seen := ["https://e.test/"] }
      (unretrieved_row "https://e.test/" "x") ["https://e.test/a"] (by decide)).1⟩

/-! ## C1: a re-queued URL's event is dropped, not re-recorded -/

/-- C1 counterexample: deliver two `Page` events for the same URL (as a
`RetryUrls` batch would).  The sink gains no second row and the in-memory
store keeps the first record, not the latest — contradicting the claim that
the latest record replaces the counters and appends a new dataset row. -/
theorem C1_counterexample :
    (handle_crawl_event
        (handle_crawl_event AppState.default []
          (CrawlEvent.Page (unretrieved_row "https://e.test/" "first") [])).1
        (handle_crawl_event AppState.default []
          (CrawlEvent.Page (unretrieved_row "https://e.test/" "first") [])).2
        (CrawlEvent.Page (unretrieved_row "https://e.test/" "second") [])).2.length = 1 ∧
      (handle_crawl_event
        (handle_crawl_event AppState.default []
          (CrawlEvent.Page (unretrieved_row "https://e.test/" "first") [])).1
        (handle_crawl_event AppState.default []
          (CrawlEvent.Page (unretrieved_row "https://e.test/" "first") [])).2
        (CrawlEvent.Page (unretrieved_row "https://e.test/" "second") [])).1.all_rows =
        [unretrieved_row "https://e.test/" "first"] ∧
      unretrieved_row "https://e.test/" "first" ≠
        unretrieved_row "https://e.test/" "second" := by
  decide

/-- C1 (amended): delivering a `Page` event for a URL that already has a
record appends nothing to the sink and leaves the in-memory rows and
counters at the first record; only `discovered_seen` and `incoming_links`
absorb the event's links.  After a `RetryUrls` batch the sink therefore
still holds one row per URL and the store reflects the first record. -/
theorem C1_requeue_event_dropped (state : AppState) (sink : List (CrawlRow × List String))
    (row : CrawlRow) (links : List String) (h : row.url ∈ state.seen) :
    (handle_crawl_event state sink (CrawlEvent.Page row links)).2 = sink ∧
      (handle_crawl_event state sink (CrawlEvent.Page row links)).1.all_rows =
        state.all_rows ∧
      (handle_crawl_event state sink (CrawlEvent.Page row links)).1.rows = state.rows ∧
      (handle_crawl_event state sink (CrawlEvent.Page row links)).1.status_counts =
        state.status_counts ∧
      (handle_crawl_event state sink (CrawlEvent.Page row links)).1.issue_counts =
        state.issue_counts := by
  simp [handle_crawl_event, AppState.push_row, h]

/-- Witness for the amended C1 at a concrete state. -/
theorem C1_requeue_event_dropped_witness :
    (handle_crawl_event { AppState.default with seen := ["https://e.test/"] }
        [(unretrieved_row "https://e.test/" "first", [])]
        (CrawlEvent.Page (unretrieved_row "https://e.test/" "second") [])).2 =
      [(unretrieved_row "https://e.test/" "first", [])] :=
  (C1_requeue_event_dropped { AppState.default with seen := ["https://e.test/"] }
    [(unretrieved_row "https://e.test/" "first", [])]
    (unretrieved_row "https://e.test/" "second") [] (by decide)).1

/-! ## C8: JSON sink -/

theorem writeAll_content (recs : List String) (s : JsonSink) (h : s.first = false) :
    (JsonSink.writeAll s recs).content.data =
        s.content.data ++ (recs.map fun r => ",\n".data ++ r.data).flatten ∧
      (JsonSink.writeAll s recs).first = false ∧
      (JsonSink.writeAll s recs).closed = s.closed := by
  induction recs generalizing s with
  | nil => simp [JsonSink.writeAll, h]
  | cons r rest ih =>
    have step : JsonSink.writeAll s (r :: rest) =
        JsonSink.writeAll (s.write_row r) rest := rfl
    obtain ⟨h1, h2, h3⟩ := ih (s.write_row r) (by simp [JsonSink.write_row])
    rw [step]
    refine ⟨?_, h2, by rw [h3]; simp [JsonSink.write_row]⟩
    rw [h1]
    simp [JsonSink.write_row, h]

theorem joinStrSep_commas_data (r : String) (rest : List String) :
    (joinStrSep ",\n" (r :: rest)).data =
      r.data ++ (rest.map fun x => ",\n".data ++ x.data).flatten := by
  induction rest generalizing r with
  | nil => simp [joinStrSep]
  | cons y t ih =>
    show (r ++ ",\n" ++ joinStrSep ",\n" (y :: t)).data = _
    simp [ih y]

/-- C8: the JSON sink writes `[\n` on open, prefixes `,\n` before every
record except the first, and finalize appends `\n]\n` (or `]\n` when no
record was written); the destructor is exactly `finalize`, and a second
`finalize` is a no-op on the file content. -/
theorem C8_json_sink (recs : List String) :
    JsonSink.new.content = "[\n" ∧
      (JsonSink.writeAll JsonSink.new recs).finalize.content =
        "[\n" ++ joinStrSep ",\n" recs ++ (if recs = [] then "]\n" else "\n]\n") ∧
      (JsonSink.writeAll JsonSink.new recs).finalize.finalize =
        (JsonSink.writeAll JsonSink.new recs).finalize ∧
      (JsonSink.writeAll JsonSink.new recs).dropSink =
        (JsonSink.writeAll JsonSink.new recs).finalize := by
  refine ⟨rfl, ?_, ?_, rfl⟩
  · cases recs with
    | nil =>
      apply String.ext
      simp [JsonSink.writeAll, JsonSink.new, JsonSink.finalize, joinStrSep]
    | cons r rest =>
      have step : JsonSink.writeAll JsonSink.new (r :: rest) =
          JsonSink.writeAll (JsonSink.new.write_row r) rest := rfl
      obtain ⟨h1, h2, h3⟩ := writeAll_content rest (JsonSink.new.write_row r)
        (by simp [JsonSink.write_row])
      have hc : (JsonSink.writeAll (JsonSink.new.write_row r) rest).closed = false := by
        rw [h3]; simp [JsonSink.write_row, JsonSink.new]
      apply String.ext
      rw [step, JsonSink.finalize, if_neg (by simp [hc])]
      simp only [String.data_append]
      rw [h1, h2]
      simp [JsonSink.write_row, JsonSink.new, joinStrSep_commas_data r rest]
  · have hclosed : (JsonSink.writeAll JsonSink.new recs).finalize.closed = true := by
      by_cases h : (JsonSink.writeAll JsonSink.new recs).closed
      · simpa [JsonSink.finalize, h] using h
      · simp [JsonSink.finalize, h]
    rw [JsonSink.finalize, if_pos hclosed]

/-! ## C2: link counts versus deduplication -/

theorem extractLinksAux_counts (page_url : String) (root : Option String) :
    ∀ (hrefs : List String) (seen : List String),
    (extractLinksAux page_url root seen hrefs).2.1 +
        (extractLinksAux page_url root seen hrefs).2.2 =
      (hrefs.filterMap fun h => resolve_href page_url (rustTrim h)).length
  | [], seen => by simp [extractLinksAux]
  | href :: rest, seen => by
    cases hres : resolve_href page_url (rustTrim href) with
    | none =>
      have ih := extractLinksAux_counts page_url root rest seen
      simp only [extractLinksAux, hres, List.filterMap_cons]
      exact ih
    | some resolved =>
      have ih := extractLinksAux_counts page_url root rest
        (if resolved ∈ seen then seen else resolved :: seen)
      simp only [extractLinksAux, hres]
      by_cases hsame : is_same_host resolved root <;>
        simp only [hres, hsame, if_true, if_false, ite_true, ite_false,
          List.filterMap_cons, List.length_cons, Bool.false_eq_true] <;>
        omega

theorem extractLinksAux_out (page_url : String) (root : Option String) :
    ∀ (hrefs : List String) (seen : List String),
    (extractLinksAux page_url root seen hrefs).1 =
      dedupFirstAux seen (hrefs.filterMap fun h => resolve_href page_url (rustTrim h))
  | [], seen => by simp [extractLinksAux, dedupFirstAux]
  | href :: rest, seen => by
    cases hres : resolve_href page_url (rustTrim href) with
    | none =>
      have ih := extractLinksAux_out page_url root rest seen
      simp only [extractLinksAux, hres, List.filterMap_cons]
      exact ih
    | some resolved =>
      by_cases hmem : resolved ∈ seen
      · have ih := extractLinksAux_out page_url root rest seen
        by_cases hsame : is_same_host resolved root <;>
          simp [extractLinksAux, hres, hmem, hsame, dedupFirstAux,
            List.filterMap_cons, ih]
      · have ih := extractLinksAux_out page_url root rest (resolved :: seen)
        by_cases hsame : is_same_host resolved root <;>
          simp [extractLinksAux, hres, hmem, hsame, dedupFirstAux,
            List.filterMap_cons, ih]

theorem dedupFirstAux_of_nodup {α : Type} [DecidableEq α] :
    ∀ (l : List α) (seen : List α), l.Nodup → (∀ x ∈ l, x ∉ seen) →
      dedupFirstAux seen l = l
  | [], seen, _, _ => by simp [dedupFirstAux]
  | x :: xs, seen, hnd, hout => by
    have hx : x ∉ seen := hout x (by simp)
    have hxs : xs.Nodup := (List.nodup_cons.mp hnd).2
    have hxx : x ∉ xs := (List.nodup_cons.mp hnd).1
    have hout' : ∀ y ∈ xs, y ∉ x :: seen := by
      intro y hy
      simp only [List.mem_cons, not_or]
      exact ⟨fun hyx => hxx (hyx ▸ hy), hout y (by simp [hy])⟩
    simp [dedupFirstAux, hx, dedupFirstAux_of_nodup xs (x :: seen) hxs hout']

/-- C2 (amended): in `extract_crawl_links_with_breakdown`,
`internal_link_count + external_link_count` counts every resolvable href
with multiplicity — before deduplication — while the returned link list is
the first-occurrence deduplication of the resolved hrefs; the equation
`link_count = internal_link_count + external_link_count` therefore holds in
`page_to_row` exactly for pages whose fetcher adds no extra links and whose
resolved document links are pairwise distinct. -/
theorem C2_link_counts_amended (hrefs : List String) (page_url : String)
    (root : Option String) :
    (extract_crawl_links_with_breakdown hrefs page_url root).2.1 +
        (extract_crawl_links_with_breakdown hrefs page_url root).2.2 =
      (hrefs.filterMap fun h => resolve_href page_url (rustTrim h)).length ∧
    (extract_crawl_links_with_breakdown hrefs page_url root).1 =
      dedupFirst (hrefs.filterMap fun h => resolve_href page_url (rustTrim h)) ∧
    ((hrefs.filterMap fun h => resolve_href page_url (rustTrim h)).Nodup →
      (page_to_row_link_counts [] hrefs page_url root).1 =
        (page_to_row_link_counts [] hrefs page_url root).2.1 +
          (page_to_row_link_counts [] hrefs page_url root).2.2) := by
  refine ⟨extractLinksAux_counts page_url root hrefs [],
    extractLinksAux_out page_url root hrefs [], ?_⟩
  intro hnd
  have hout := extractLinksAux_out page_url root hrefs []
  have hcnt := extractLinksAux_counts page_url root hrefs []
  have hdedup := dedupFirstAux_of_nodup
    (hrefs.filterMap fun h => resolve_href page_url (rustTrim h)) [] hnd (by simp)
  simp only [page_to_row_link_counts, extract_crawl_links_with_breakdown,
    List.nil_append, dedupFirst] at hout hcnt ⊢
  rw [hout, hdedup, hdedup]
  exact hcnt.symm

/-- C2 counterexample: a page with the same internal link twice has
`link_count = 1` after deduplication but `internal_link_count = 2`, so
`link_count ≠ internal_link_count + external_link_count`. -/
theorem C2_counterexample :
    (page_to_row_link_counts [] ["https://example.test/a", "https://example.test/a"]
        "https://example.test/" (some "example.test")).1 = 1 ∧
      (page_to_row_link_counts [] ["https://example.test/a", "https://example.test/a"]
        "https://example.test/" (some "example.test")).2.1 = 2 ∧
      (page_to_row_link_counts [] ["https://example.test/a", "https://example.test/a"]
        "https://example.test/" (some "example.test")).2.2 = 0 := by
  decide

/-- Witness for the amended C2 at a concrete href list. -/
theorem C2_link_counts_amended_witness :
    (page_to_row_link_counts [] ["https://example.test/a", "https://example.test/b"]
        "https://example.test/" (some "example.test")).1 =
      (page_to_row_link_counts [] ["https://example.test/a", "https://example.test/b"]
        "https://example.test/" (some "example.test")).2.1 +
        (page_to_row_link_counts [] ["https://example.test/a", "https://example.test/b"]
          "https://example.test/" (some "example.test")).2.2 :=
  (C2_link_counts_amended ["https://example.test/a", "https://example.test/b"]
    "https://example.test/" (some "example.test")).2.2 (by decide)

/-! ## C4: the redirect probe emits a simple chain -/

theorem rawRedirectAux_spec (probe : String → Option ProbeResp) :
    ∀ (fuel : Nat) (current : String) (seen : List String),
      (∀ x ∈ (rawRedirectAux probe fuel current seen).1, x.1.url ∉ seen) ∧
        ((rawRedirectAux probe fuel current seen).1.map fun x => x.1.url).Nodup ∧
        (∀ x, (rawRedirectAux probe fuel current seen).1.head? = some x →
          x.1.url = current) ∧
        ((rawRedirectAux probe fuel current seen).1 = [] →
          (rawRedirectAux probe fuel current seen).2 = current) ∧
        hopChain ((rawRedirectAux probe fuel current seen).1.map Prod.fst)
          (rawRedirectAux probe fuel current seen).2
  | 0, current, seen => by simp [rawRedirectAux, hopChain]
  | fuel + 1, current, seen => by
    by_cases hmem : current ∈ seen
    · simp [rawRedirectAux, hmem, hopChain]
    cases hpr : probe current with
    | none => simp [rawRedirectAux, hmem, hpr, hopChain]
    | some resp =>
      by_cases hst : 300 ≤ resp.status ∧ resp.status ≤ 399
      · by_cases hloc : (rustTrim (resp.location.getD "")).data = []
        · simp [rawRedirectAux, hmem, hpr, hst, hloc, hopChain]
        · have hunf : rawRedirectAux probe (fuel + 1) current seen =
              ((redirectHopRow current resp (redirectTarget current resp),
                  [redirectTarget current resp]) ::
                (rawRedirectAux probe fuel (redirectTarget current resp)
                  (current :: seen)).1,
                (rawRedirectAux probe fuel (redirectTarget current resp)
                  (current :: seen)).2) := by
            conv_lhs => rw [rawRedirectAux]
            simp only [if_neg hmem, hpr]
            rw [if_neg (not_not_intro hst), if_neg hloc]
          obtain ⟨ih1, ih2, ih3, ih4, ih5⟩ :=
            rawRedirectAux_spec probe fuel (redirectTarget current resp) (current :: seen)
          rw [hunf]
          refine ⟨?_, ?_, ?_, by simp, ?_⟩
          · intro x hx
            rcases List.mem_cons.mp hx with hx | hx
            · rw [hx]; exact hmem
            · exact fun hxs => ih1 x hx (List.mem_cons_of_mem _ hxs)
          · refine List.nodup_cons.mpr ⟨?_, ih2⟩
            intro hcur
            obtain ⟨x, hx, hxu⟩ := List.mem_map.mp hcur
            exact ih1 x hx (hxu ▸ List.mem_cons_self _ _)
          · intro x hx
            simp only [List.head?_cons, Option.some.injEq] at hx
            rw [← hx]
            rfl
          · cases hrest : (rawRedirectAux probe fuel (redirectTarget current resp)
                (current :: seen)).1 with
            | nil =>
              have hfin := ih4 hrest
              simp only [hrest, List.map_cons, List.map_nil, hopChain, hfin]
              rfl
            | cons x xs =>
              have hx : x.1.url = redirectTarget current resp :=
                ih3 x (by rw [hrest]; rfl)
              rw [hrest] at ih5
              simp only [hrest, List.map_cons, hopChain] at ih5 ⊢
              exact ⟨hx.symm, ih5⟩
      · simp [rawRedirectAux, hmem, hpr, hst, hopChain]

/-- C4: for every probe oracle, start URL and `max_hops ≥ 1`, the hop rows
emitted by the redirect probe have pairwise-distinct URLs and each hop's
`redirect_url` is the next hop's URL, the last hop's `redirect_url` being
the final fetch URL returned by the probe. -/
theorem C4_redirect_chain (probe : String → Option ProbeResp) (start : String)
    (max_hops : Nat) (h : 1 ≤ max_hops) :
    ((raw_redirect_rows probe start max_hops).1.map fun x => x.1.url).Nodup ∧
      hopChain ((raw_redirect_rows probe start max_hops).1.map Prod.fst)
        (raw_redirect_rows probe start max_hops).2 := by
  obtain ⟨_, h2, _, _, h5⟩ := rawRedirectAux_spec probe (max max_hops 1)
    ((normalize_crawl_url start).getD start) []
  exact ⟨h2, h5⟩

/-- Witness for C4 with a two-hop oracle. -/
theorem C4_redirect_chain_witness :
    (((raw_redirect_rows
        (fun u => if u = "http://a.test/" then
            some ⟨301, some "/b", some "text/html", none⟩
          else none)
        "http://a.test/" 8).1.map fun x => x.1.url).Nodup) ∧
      hopChain ((raw_redirect_rows
        (fun u => if u = "http://a.test/" then
            some ⟨301, some "/b", some "text/html", none⟩
          else none)
        "http://a.test/" 8).1.map Prod.fst)
        (raw_redirect_rows
          (fun u => if u = "http://a.test/" then
              some ⟨301, some "/b", some "text/html", none⟩
            else none)
          "http://a.test/" 8).2 :=
  C4_redirect_chain _ "http://a.test/" 8 (by decide)

/-! ## C5: the final event of `process_single_url` -/

theorem innerLoop_isSome (fetch : Nat → FetchedPage) :
    ∀ (n k : Nat) (st : Option FetchedPage), 1 ≤ n ∨ st.isSome →
      ((innerLoop fetch k st n).2).isSome
  | 0, k, st, h => by
    rcases h with h | h
    · omega
    · simpa [innerLoop] using h
  | n + 1, k, st, _ => by
    rw [innerLoop]
    by_cases hlt : (fetch k).status < 500
    · simp [hlt]
    · simp only [hlt, if_false, ite_false, Bool.false_eq_true]
      exact innerLoop_isSome fetch n (k + 1) (some (fetch k)) (Or.inr rfl)

theorem outerLoop_isSome (fetch : Nat → FetchedPage) (retries : Nat) (h : 1 ≤ retries) :
    ∀ (rounds k : Nat) (st : Option FetchedPage),
      ((outerLoop fetch retries k st rounds).2).isSome
  | 0, k, st => by
    rw [outerLoop]
    exact innerLoop_isSome fetch retries k st (Or.inl h)
  | r + 1, k, st => by
    rw [outerLoop]
    have hsome := innerLoop_isSome fetch retries k st (Or.inl h)
    by_cases hbr : (match (innerLoop fetch k st retries).2 with
        | some p => p.status
        | none => 0) < 500
    · simpa [hbr] using hsome
    · simp only [hbr, if_false, ite_false, Bool.false_eq_true]
      exact outerLoop_isSome fetch retries h r (innerLoop fetch k st retries).1
        (innerLoop fetch k st retries).2

/-- C5: with retry budget `R ≥ 1` and requeue rounds `Q`, a page is always
obtained, and the final event is `Unretrieved` with reason exactly
`"http <status> after <R> retries and <Q> requeues"` if and only if the
final page has status ≥ 500 and an empty body; otherwise the analyzed
`Page` event is emitted.  (The `"fallback fetch could not start"` branch is
unreachable: the loops always produce a page.) -/
theorem C5_final_event (fetch : Nat → FetchedPage) (R Q : Nat) (url : String)
    (hR : 1 ≤ R) :
    ∃ p : FetchedPage,
      (outerLoop fetch R 0 none Q).2 = some p ∧
        (process_single_url_final fetch R Q url =
            FinalEvent.Unretrieved url
              ("http " ++ natToString p.status ++ " after " ++ natToString R ++
                " retries and " ++ natToString Q ++ " requeues") ↔
          500 ≤ p.status ∧ p.size = 0) ∧
        (¬ (500 ≤ p.status ∧ p.size = 0) →
          process_single_url_final fetch R Q url = FinalEvent.Page p.status p.size) := by
  have hmax : max R 1 = R := by omega
  obtain ⟨p, hp⟩ := Option.isSome_iff_exists.mp (outerLoop_isSome fetch R hR Q 0 none)
  have hev : process_single_url_final fetch R Q url =
      (if p.size = 0 ∧ 500 ≤ p.status then
        FinalEvent.Unretrieved url
          ("http " ++ natToString p.status ++ " after " ++ natToString R ++
            " retries and " ++ natToString Q ++ " requeues")
      else FinalEvent.Page p.status p.size) := by
    simp only [process_single_url_final, hmax, hp]
  refine ⟨p, hp, ?_, ?_⟩
  · rw [hev]
    by_cases hcond : p.size = 0 ∧ 500 ≤ p.status
    · rw [if_pos hcond]
      exact ⟨fun _ => ⟨hcond.2, hcond.1⟩, fun _ => rfl⟩
    · rw [if_neg hcond]
      constructor
      · intro h'
        cases h'
      · intro hrhs
        exact absurd ⟨hrhs.2, hrhs.1⟩ hcond
  · intro hncond
    rw [hev, if_neg fun hc => hncond ⟨hc.2, hc.1⟩]

/-- Witness for C5: an always-503/empty-body server yields exactly the
documented `Unretrieved` reason. -/
theorem C5_final_event_witness :
    process_single_url_final (fun _ => ⟨503, 0⟩) 3 2 "https://e.test/x" =
      FinalEvent.Unretrieved "https://e.test/x" "http 503 after 3 retries and 2 requeues" := by
  obtain ⟨p, hp, hiff, _⟩ :=
    C5_final_event (fun _ => ⟨503, 0⟩) 3 2 "https://e.test/x" (by decide)
  have hp503 : p = ⟨503, 0⟩ := by
    have hsome : (outerLoop (fun _ => (⟨503, 0⟩ : FetchedPage)) 3 0 none 2).2 =
        some ⟨503, 0⟩ := by decide
    rw [hsome] at hp
    exact (Option.some_inj.mp hp).symm
  subst hp503
  exact (hiff.mpr (by decide)).trans (by decide)

/-! ## C7: CSV round-trip -/

theorem splitOnChar_no_sep (sep : Char) :
    ∀ l : List Char, sep ∉ l → splitOnChar sep l = [l]
  | [], _ => rfl
  | c :: cs, h => by
    have hc : ¬ (c == sep) = true := by
      simp only [beq_iff_eq]
      exact fun hcs => h (hcs ▸ List.mem_cons_self _ _)
    rw [splitOnChar, if_neg hc, splitOnChar_no_sep sep cs (fun hm => h (List.mem_cons_of_mem _ hm))]

theorem splitOnChar_append (sep : Char) (t : List Char) :
    ∀ x : List Char, sep ∉ x → splitOnChar sep (x ++ sep :: t) = x :: splitOnChar sep t
  | [], _ => by simp [splitOnChar]
  | c :: cs, h => by
    have hc : ¬ (c == sep) = true := by
      simp only [beq_iff_eq]
      exact fun hcs => h (hcs ▸ List.mem_cons_self _ _)
    rw [List.cons_append, splitOnChar, if_neg hc,
      splitOnChar_append sep t cs (fun hm => h (List.mem_cons_of_mem _ hm))]

theorem splitOnChar_joinChar (sep : Char) :
    ∀ parts : List (List Char), parts ≠ [] → (∀ p ∈ parts, sep ∉ p) →
      splitOnChar sep (joinChar sep parts) = parts
  | [], h, _ => absurd rfl h
  | [x], _, hs => by
    rw [joinChar, splitOnChar_no_sep sep x (hs x (by simp))]
  | x :: y :: rest, _, hs => by
    rw [joinChar, splitOnChar_append sep _ x (hs x (by simp)),
      splitOnChar_joinChar sep (y :: rest) (by simp)
        (fun p hp => hs p (List.mem_cons_of_mem _ hp))]

theorem from_label_label (i : SeoIssue) : SeoIssue.from_label ⟨i.label.data⟩ = some i := by
  cases i <;> rfl

theorem label_no_pipe (i : SeoIssue) : '|' ∉ i.label.data := by
  cases i <;> decide

theorem issues_csv_roundtrip (issues : List SeoIssue) :
    (splitOnChar '|' (issues_to_csv issues).data).filterMap
      (fun l => SeoIssue.from_label ⟨l⟩) = issues := by
  cases issues with
  | nil => rfl
  | cons i rest =>
    have hsplit := splitOnChar_joinChar '|' ((i :: rest).map fun j => j.label.data)
      (by simp) (by
        intro p hp
        obtain ⟨j, _, hj⟩ := List.mem_map.mp hp
        exact hj ▸ label_no_pipe j)
    show (splitOnChar '|' (joinChar '|' ((i :: rest).map fun j => j.label.data))).filterMap
      (fun l => SeoIssue.from_label ⟨l⟩) = i :: rest
    rw [hsplit, List.filterMap_map]
    have : ∀ l : List SeoIssue,
        l.filterMap ((fun ch => SeoIssue.from_label ⟨ch⟩) ∘ fun j => j.label.data) = l := by
      intro l
      induction l with
      | nil => rfl
      | cons a as ih => simp [Function.comp, from_label_label, ih]
    exact this (i :: rest)

theorem links_pipe_roundtrip (links : List String)
    (h : ∀ l ∈ links, l.data ≠ [] ∧ '|' ∉ l.data ∧ trimCh l.data = l.data) :
    ((splitOnChar '|' (joinPipe links).data).map fun l => rustTrim ⟨l⟩).filter
      (fun s => ¬ s.data = []) = links := by
  cases links with
  | nil => rfl
  | cons x rest =>
    have hsplit := splitOnChar_joinChar '|' ((x :: rest).map String.data)
      (by simp) (by
        intro p hp
        obtain ⟨j, hj, hjd⟩ := List.mem_map.mp hp
        exact hjd ▸ (h j hj).2.1)
    show ((splitOnChar '|' (joinChar '|' ((x :: rest).map String.data))).map
      fun l => rustTrim ⟨l⟩).filter (fun s => ¬ s.data = []) = x :: rest
    rw [hsplit, List.map_map]
    have : ∀ l : List String, (∀ a ∈ l, a.data ≠ [] ∧ '|' ∉ a.data ∧ trimCh a.data = a.data) →
        (l.map ((fun ch => rustTrim (⟨ch⟩ : String)) ∘ String.data)).filter
          (fun s => ¬ s.data = []) = l := by
      intro l hl
      induction l with
      | nil => rfl
      | cons a as ih =>
        have ha := hl a (by simp)
        have hta : rustTrim ⟨a.data⟩ = a := by
          show (⟨trimCh a.data⟩ : String) = a
          rw [ha.2.2]
        simp only [List.map_cons, Function.comp, hta, List.filter_cons]
        rw [if_pos (by simpa using ha.1)]
        rw [ih (fun b hb => hl b (List.mem_cons_of_mem _ hb))]
    exact this (x :: rest) h

/-- C7: writing a `PageRecord` through the CSV sink and parsing the cells
back reconstructs the same record and links.  The hypotheses delimit
records the program actually produces: non-blank URL, non-empty retrieval
status, the `not_retrieved ⇒ issues ≠ []` invariant, a stored score of 0
only when the issues recompute to 0 (the loader recomputes the score
exactly when the stored score is 0 and issues are present), and links that
are non-empty, pipe-free and trimmed. -/
theorem C7_csv_roundtrip (row : CrawlRow) (links : List String)
    (hurl : (rustTrim row.url).data ≠ [])
    (hret : row.retrieval_status ≠ "")
    (hretne : row.retrieval_status = "not_retrieved" → row.issues ≠ [])
    (hscore : row.seo_score = 0 → row.issues ≠ [] → compute_seo_score row.issues = 0)
    (hlinks : ∀ l ∈ links, l.data ≠ [] ∧ '|' ∉ l.data ∧ trimCh l.data = l.data)
    (hlinksne : links ≠ []) :
    load_row_from_cells (csv_write_row (row_to_export_record row links)) =
      some (row, links) := by
  have hissues := issues_csv_roundtrip row.issues
  have hlinks' := links_pipe_roundtrip links hlinks
  simp only [csv_write_row, row_to_export_record, load_row_from_cells]
  rw [if_neg hurl]
  simp only [parseNat?_natToString, Option.getD_some]
  rw [if_neg hret]
  simp only [export_record_to_row, hissues]
  have hiss_if :
      (if row.issues = [] ∧ row.retrieval_status = "not_retrieved" then
        [SeoIssue.NotRetrieved] else row.issues) = row.issues :=
    if_neg fun hc => hretne hc.2 hc.1
  rw [hiss_if, hlinks']
  have hscore_if :
      (if row.seo_score = 0 ∧ row.issues ≠ [] then compute_seo_score row.issues
        else row.seo_score) = row.seo_score := by
    by_cases hsc : row.seo_score = 0 ∧ row.issues ≠ []
    · rw [if_pos hsc, hscore hsc.1 hsc.2]
      exact hsc.1.symm
    · exact if_neg hsc
  rw [hscore_if]

/-- Witness for C7 at a concrete record with outgoing links. -/
theorem C7_csv_roundtrip_witness :
    load_row_from_cells
        (csv_write_row (row_to_export_record (unretrieved_row "https://e.test/" "boom")
          ["https://e.test/a"])) =
      some (unretrieved_row "https://e.test/" "boom", ["https://e.test/a"]) :=
  C7_csv_roundtrip (unretrieved_row "https://e.test/" "boom") ["https://e.test/a"]
    (by decide) (by decide) (fun _ => by decide) (fun h => absurd h (by decide))
    (by decide) (by decide)

/-! ## C6: percent-coding machinery -/

theorem percentDecodeAux_congr :
    ∀ (f1 : Nat) (l : List Char) (f2 : Nat), l.length ≤ f1 → l.length ≤ f2 →
      percentDecodeAux f1 l = percentDecodeAux f2 l
  | 0, l, f2, h1, _ => by
    have hl : l = [] := List.length_eq_zero.mp (by omega)
    subst hl
    cases f2 <;> rfl
  | f1 + 1, l, f2, h1, h2 => by
    cases l with
    | nil => cases f2 <;> rfl
    | cons c rest =>
      cases f2 with
      | zero => simp at h2
      | succ f2' =>
        simp only [List.length_cons] at h1 h2
        rw [percentDecodeAux, percentDecodeAux]
        by_cases hc : (c == '%' && decide (2 ≤ rest.length) && isHexC (rest.headD ' ') &&
            isHexC ((rest.drop 1).headD ' ')) = true
        · rw [if_pos hc, if_pos hc,
            percentDecodeAux_congr f1 (rest.drop 2) f2'
              (by simp only [List.length_drop]; omega)
              (by simp only [List.length_drop]; omega)]
        · rw [if_neg hc, if_neg hc,
            percentDecodeAux_congr f1 rest f2' (by omega) (by omega)]

theorem percentDecode_cons (c : Char) (l : List Char) :
    percentDecode (c :: l) =
      if (c == '%' && decide (2 ≤ l.length) && isHexC (l.headD ' ') &&
          isHexC ((l.drop 1).headD ' ')) = true then
        Char.ofNat (16 * hexVal (l.headD ' ') + hexVal ((l.drop 1).headD ' ')) ::
          percentDecode (l.drop 2)
      else c :: percentDecode l := by
  show percentDecodeAux (l.length + 1) (c :: l) = _
  rw [percentDecodeAux]
  by_cases hc : (c == '%' && decide (2 ≤ l.length) && isHexC (l.headD ' ') &&
      isHexC ((l.drop 1).headD ' ')) = true
  · rw [if_pos hc, if_pos hc,
      percentDecodeAux_congr l.length (l.drop 2) (l.drop 2).length
        (by simp only [List.length_drop]; omega) le_rfl]
    rfl
  · rw [if_neg hc, if_neg hc]
    rfl

theorem escapesOkAux_congr :
    ∀ (f1 : Nat) (l : List Char) (f2 : Nat), l.length ≤ f1 → l.length ≤ f2 →
      escapesOkAux f1 l = escapesOkAux f2 l
  | 0, l, f2, h1, _ => by
    have hl : l = [] := List.length_eq_zero.mp (by omega)
    subst hl
    cases f2 <;> rfl
  | f1 + 1, l, f2, h1, h2 => by
    cases l with
    | nil => cases f2 <;> rfl
    | cons c rest =>
      cases f2 with
      | zero => simp at h2
      | succ f2' =>
        simp only [List.length_cons] at h1 h2
        rw [escapesOkAux, escapesOkAux]
        by_cases hc : (c == '%') = true
        · rw [if_pos hc, if_pos hc,
            escapesOkAux_congr f1 (rest.drop 2) f2'
              (by simp only [List.length_drop]; omega)
              (by simp only [List.length_drop]; omega)]
        · rw [if_neg hc, if_neg hc,
            escapesOkAux_congr f1 rest f2' (by omega) (by omega)]

theorem escapesOk_cons (c : Char) (l : List Char) :
    escapesOk (c :: l) =
      if (c == '%') = true then
        (decide (2 ≤ l.length) && isHexC (l.headD ' ') && isHexC ((l.drop 1).headD ' ') &&
          decide (hexVal (l.headD ' ') < 8) && escapesOk (l.drop 2))
      else escapesOk l := by
  show escapesOkAux (l.length + 1) (c :: l) = _
  rw [escapesOkAux]
  by_cases hc : (c == '%') = true
  · rw [if_pos hc, if_pos hc,
      escapesOkAux_congr l.length (l.drop 2) (l.drop 2).length
        (by simp only [List.length_drop]; omega) le_rfl]
    rfl
  · rw [if_neg hc, if_neg hc]
    rfl

theorem mem_joinChar {sep : Char} :
    ∀ {parts : List (List Char)} {c : Char}, c ∈ joinChar sep parts →
      c = sep ∨ ∃ p ∈ parts, c ∈ p := by
  intro parts
  induction parts with
  | nil => intro c hc; simp [joinChar] at hc
  | cons x rest ih =>
    intro c hc
    cases rest with
    | nil =>
      rw [joinChar] at hc
      exact Or.inr ⟨x, by simp, hc⟩
    | cons y t =>
      rw [joinChar] at hc
      rcases List.mem_append.mp hc with hx | hs
      · exact Or.inr ⟨x, by simp, hx⟩
      · rcases List.mem_cons.mp hs with hsep | hj
        · exact Or.inl hsep
        · rcases ih hj with h | ⟨p, hp, hcp⟩
          · exact Or.inl h
          · exact Or.inr ⟨p, List.mem_cons_of_mem _ hp, hcp⟩

theorem mem_formEncode {l : List Char} {d : Char} (hd : d ∈ formEncode l) :
    ∃ c ∈ l, d ∈ formEncodeChar c := by
  rw [formEncode] at hd
  obtain ⟨blk, hblk, hdm⟩ := List.mem_flatten.mp hd
  obtain ⟨c, hc, hcb⟩ := List.mem_map.mp hblk
  exact ⟨c, hc, hcb ▸ hdm⟩

theorem isFormSafe_toNat {c : Char} (h : isFormSafe c = true) :
    48 ≤ c.toNat ∧ c.toNat ≤ 57 ∨ 65 ≤ c.toNat ∧ c.toNat ≤ 90 ∨
      97 ≤ c.toNat ∧ c.toNat ≤ 122 ∨ c.toNat = 42 ∨ c.toNat = 45 ∨
      c.toNat = 46 ∨ c.toNat = 95 := by
  simp only [isFormSafe, isAlphaNumC, isAlphaC, isUpperC, isLowerC, isDigitC,
    Bool.or_eq_true, Bool.and_eq_true, decide_eq_true_eq, beq_iff_eq] at h
  rcases h with (((((⟨h1, h2⟩ | ⟨h1, h2⟩) | ⟨h1, h2⟩) | he) | he) | he) | he
  · omega
  · omega
  · omega
  · subst he; decide
  · subst he; decide
  · subst he; decide
  · subst he; decide

theorem formEncodeChar_facts {c : Char} (hc : c.toNat < 128) {d : Char}
    (hd : d ∈ formEncodeChar c) :
    33 ≤ d.toNat ∧ d.toNat ≤ 126 ∧ d.toNat ≠ 35 ∧ d.toNat ≠ 38 ∧ d.toNat ≠ 61 := by
  rw [formEncodeChar] at hd
  by_cases hsafe : isFormSafe c = true
  · rw [if_pos hsafe] at hd
    have hdc : d = c := by simpa using hd
    subst hdc
    rcases isFormSafe_toNat hsafe with h | h | h | h | h | h | h <;> omega
  · rw [if_neg hsafe] at hd
    by_cases hsp : (c == ' ') = true
    · rw [if_pos hsp] at hd
      have hdc : d = '+' := by simpa using hd
      subst hdc; decide
    · rw [if_neg hsp] at hd
      have hhi : c.toNat / 16 < 16 := by omega
      have hlo : c.toNat % 16 < 16 := Nat.mod_lt _ (by omega)
      have hup1 := hexDigitUpper_toNat hhi
      have hup2 := hexDigitUpper_toNat hlo
      rcases List.mem_cons.mp hd with hdc | hd2
      · subst hdc; decide
      · rcases List.mem_cons.mp hd2 with hdc | hd3
        · subst hdc
          by_cases hten : c.toNat / 16 < 10 <;>
            [rw [if_pos hten] at hup1; rw [if_neg hten] at hup1] <;> omega
        · have hdc : d = hexDigitUpper (c.toNat % 16) := by simpa using hd3
          subst hdc
          by_cases hten : c.toNat % 16 < 10 <;>
            [rw [if_pos hten] at hup2; rw [if_neg hten] at hup2] <;> omega

theorem serialize_char_facts {ps : List (List Char × List Char)} (hps : pairsAscii ps)
    {d : Char} (hd : d ∈ serializePairsCh ps) :
    33 ≤ d.toNat ∧ d.toNat ≤ 126 ∧ d.toNat ≠ 35 := by
  rw [serializePairsCh] at hd
  rcases mem_joinChar hd with hamp | ⟨p, hp, hdp⟩
  · subst hamp; decide
  · obtain ⟨kv, hkv, hkvp⟩ := List.mem_map.mp hp
    obtain ⟨hk, hv⟩ := hps kv hkv
    subst hkvp
    rcases List.mem_append.mp hdp with hdk | hdr
    · obtain ⟨c, hc, hcd⟩ := mem_formEncode hdk
      have := formEncodeChar_facts (hk c hc) hcd
      exact ⟨this.1, this.2.1, this.2.2.1⟩
    · rcases List.mem_cons.mp hdr with hde | hdv
      · subst hde; decide
      · obtain ⟨c, hc, hcd⟩ := mem_formEncode hdv
        have := formEncodeChar_facts (hv c hc) hcd
        exact ⟨this.1, this.2.1, this.2.2.1⟩

theorem escapesOk_append (a : List Char) (ha : escapesOk a = true) (b : List Char)
    (hb : escapesOk b = true) : escapesOk (a ++ b) = true := by
  have H : ∀ (n : Nat) (l : List Char), l.length ≤ n → escapesOk l = true →
      escapesOk (l ++ b) = true := by
    intro n
    induction n with
    | zero =>
      intro l hlen _
      have hl : l = [] := List.length_eq_zero.mp (by omega)
      subst hl
      exact hb
    | succ n ih =>
      intro l hlen hl
      cases l with
      | nil => exact hb
      | cons c rest =>
        rw [escapesOk_cons] at hl
        rw [List.cons_append, escapesOk_cons]
        by_cases hc : (c == '%') = true
        · rw [if_pos hc] at hl ⊢
          simp only [Bool.and_eq_true, decide_eq_true_eq] at hl
          obtain ⟨⟨⟨⟨hln, hh1⟩, hh2⟩, hlt⟩, hrec⟩ := hl
          cases rest with
          | nil => simp at hln
          | cons h1 rest1 =>
            cases rest1 with
            | nil => simp at hln
            | cons h2 rest2 =>
              simp only [List.headD_cons, List.drop_succ_cons, List.drop_zero]
                at hh1 hh2 hlt hrec
              simp only [List.cons_append, List.headD_cons, List.drop_succ_cons,
                List.drop_zero, Bool.and_eq_true, decide_eq_true_eq, List.length_cons]
              simp only [List.length_cons] at hlen
              exact ⟨⟨⟨⟨by omega, hh1⟩, hh2⟩, hlt⟩, ih rest2 (by omega) hrec⟩
        · rw [if_neg hc] at hl ⊢
          simp only [List.length_cons] at hlen
          exact ih rest (by omega) hl
  exact H a.length a le_rfl ha

theorem not_percent_of_isFormSafe {c : Char} (h : isFormSafe c = true) :
    (c == '%') = false := by
  rw [beq_eq_false_iff_ne]
  refine char_ne_of_toNat_ne ?_
  have h37 : ('%').toNat = 37 := rfl
  rcases isFormSafe_toNat h with h | h | h | h | h | h | h <;> omega

theorem escapesOk_formEncodeChar (c : Char) (hc : c.toNat < 128) :
    escapesOk (formEncodeChar c) = true := by
  rw [formEncodeChar]
  by_cases hsafe : isFormSafe c = true
  · rw [if_pos hsafe, escapesOk_cons, if_neg (by simp [not_percent_of_isFormSafe hsafe])]
    rfl
  · rw [if_neg hsafe]
    by_cases hsp : (c == ' ') = true
    · rw [if_pos hsp]
      decide
    · rw [if_neg hsp]
      have hhi : c.toNat / 16 < 16 := by omega
      have hhi8 : c.toNat / 16 < 8 := by omega
      have hlo : c.toNat % 16 < 16 := Nat.mod_lt _ (by omega)
      rw [escapesOk_cons, if_pos (by decide)]
      simp only [List.headD_cons, List.drop_succ_cons, List.drop_zero, List.length_cons,
        Bool.and_eq_true, decide_eq_true_eq]
      exact ⟨⟨⟨⟨by omega, isHexC_hexDigitUpper hhi⟩, isHexC_hexDigitUpper hlo⟩,
        by rw [hexVal_hexDigitUpper hhi]; exact hhi8⟩, rfl⟩

theorem escapesOk_formEncode (l : List Char) (h : ∀ c ∈ l, c.toNat < 128) :
    escapesOk (formEncode l) = true := by
  induction l with
  | nil => rfl
  | cons c rest ih =>
    have hstep : formEncode (c :: rest) = formEncodeChar c ++ formEncode rest := by
      simp [formEncode]
    rw [hstep]
    exact escapesOk_append _ (escapesOk_formEncodeChar c (h c (by simp)))
      _ (ih fun x hx => h x (List.mem_cons_of_mem _ hx))

theorem escapesOk_piece {k v : List Char} (hk : ∀ c ∈ k, c.toNat < 128)
    (hv : ∀ c ∈ v, c.toNat < 128) :
    escapesOk (formEncode k ++ '=' :: formEncode v) = true := by
  refine escapesOk_append _ (escapesOk_formEncode k hk) _ ?_
  rw [escapesOk_cons, if_neg (by decide)]
  exact escapesOk_formEncode v hv

theorem escapesOk_serialize :
    ∀ ps : List (List Char × List Char), pairsAscii ps →
      escapesOk (serializePairsCh ps) = true
  | [], _ => rfl
  | [kv], hps => by
    have h := hps kv (by simp)
    rw [serializePairsCh]
    show escapesOk (joinChar '&' [formEncode kv.1 ++ '=' :: formEncode kv.2]) = true
    rw [joinChar]
    exact escapesOk_piece h.1 h.2
  | kv :: kv2 :: rest, hps => by
    have h := hps kv (by simp)
    have htail := escapesOk_serialize (kv2 :: rest)
      (fun x hx => hps x (List.mem_cons_of_mem _ hx))
    rw [serializePairsCh] at htail ⊢
    show escapesOk ((formEncode kv.1 ++ '=' :: formEncode kv.2) ++
      '&' :: joinChar '&' ((kv2 :: rest).map fun kv => formEncode kv.1 ++ '=' ::
        formEncode kv.2)) = true
    refine escapesOk_append _ (escapesOk_piece h.1 h.2) _ ?_
    rw [escapesOk_cons, if_neg (by decide)]
    exact htail

theorem queryOk_serialize (ps : List (List Char × List Char)) (hps : pairsAscii ps) :
    queryOk (serializePairsCh ps) = true := by
  rw [queryOk, Bool.and_eq_true]
  refine ⟨List.all_eq_true.mpr fun d hd => ?_, escapesOk_serialize ps hps⟩
  obtain ⟨h1, h2, h3⟩ := serialize_char_facts hps hd
  simp only [isQueryChar, Bool.and_eq_true, decide_eq_true_eq]
  refine ⟨⟨by omega, by omega⟩, ?_⟩
  simp only [Bool.not_eq_true']
  rw [beq_eq_false_iff_ne]
  refine char_ne_of_toNat_ne ?_
  have h35 : ('#').toNat = 35 := rfl
  omega

theorem hexDigitUpper_toNat_mem {n : Nat} (h : n < 16) :
    48 ≤ (hexDigitUpper n).toNat ∧ (hexDigitUpper n).toNat ≤ 57 ∨
      65 ≤ (hexDigitUpper n).toNat ∧ (hexDigitUpper n).toNat ≤ 70 := by
  have := hexDigitUpper_toNat h
  by_cases h10 : n < 10
  · rw [if_pos h10] at this
    omega
  · rw [if_neg h10] at this
    omega

theorem hexDigitUpper_beq_false {n : Nat} (h : n < 16) {t : Char}
    (ht : t.toNat < 48 ∨ 57 < t.toNat ∧ t.toNat < 65 ∨ 70 < t.toNat) :
    (hexDigitUpper n == t) = false := by
  rw [beq_eq_false_iff_ne]
  refine char_ne_of_toNat_ne ?_
  have := hexDigitUpper_toNat_mem h
  omega

theorem decodePiece_formEncode :
    ∀ k : List Char, (∀ c ∈ k, c.toNat < 128) → decodePiece (formEncode k) = k
  | [], _ => rfl
  | c :: rest, h => by
    have hc := h c (by simp)
    have ih := decodePiece_formEncode rest fun x hx => h x (List.mem_cons_of_mem _ hx)
    show percentDecode ((formEncode (c :: rest)).map fun x =>
      if x == '+' then ' ' else x) = c :: rest
    have hstep : formEncode (c :: rest) = formEncodeChar c ++ formEncode rest := by
      simp [formEncode]
    rw [hstep, List.map_append]
    by_cases hsafe : isFormSafe c = true
    · have hplusne : (c == '+') = false := by
        rw [beq_eq_false_iff_ne]
        refine char_ne_of_toNat_ne ?_
        have h43 : ('+').toNat = 43 := rfl
        rcases isFormSafe_toNat hsafe with hs | hs | hs | hs | hs | hs | hs <;> omega
      rw [formEncodeChar, if_pos hsafe]
      simp only [List.map_cons, List.map_nil, hplusne, Bool.false_eq_true, if_false,
        ite_false, List.singleton_append]
      rw [percentDecode_cons, if_neg (by simp [not_percent_of_isFormSafe hsafe])]
      exact congrArg (List.cons c) ih
    · by_cases hsp : (c == ' ') = true
      · have hceq : c = ' ' := eq_of_beq hsp
        subst hceq
        rw [formEncodeChar, if_neg hsafe, if_pos (by decide)]
        simp only [List.map_cons, List.map_nil, List.singleton_append]
        rw [show (if ('+' == '+') = true then ' ' else '+') = ' ' by decide]
        rw [percentDecode_cons, if_neg (by simp)]
        exact congrArg (List.cons ' ') ih
      · rw [formEncodeChar, if_neg hsafe, if_neg hsp]
        have hhi : c.toNat / 16 < 16 := by omega
        have hlo : c.toNat % 16 < 16 := Nat.mod_lt _ (by omega)
        have hp1 : (if ('%' == '+') = true then ' ' else '%') = '%' := by decide
        have hp2 : (if (hexDigitUpper (c.toNat / 16) == '+') = true then ' '
            else hexDigitUpper (c.toNat / 16)) = hexDigitUpper (c.toNat / 16) := by
          rw [hexDigitUpper_beq_false hhi (by decide), if_neg (by simp)]
        have hp3 : (if (hexDigitUpper (c.toNat % 16) == '+') = true then ' '
            else hexDigitUpper (c.toNat % 16)) = hexDigitUpper (c.toNat % 16) := by
          rw [hexDigitUpper_beq_false hlo (by decide), if_neg (by simp)]
        simp only [List.map_cons, List.map_nil, hp1, hp2, hp3, List.cons_append,
          List.nil_append]
        rw [percentDecode_cons, if_pos (by
          simp only [List.headD_cons, List.drop_succ_cons, List.drop_zero,
            List.length_cons, Bool.and_eq_true, decide_eq_true_eq]
          exact ⟨⟨⟨rfl, by omega⟩, isHexC_hexDigitUpper hhi⟩, isHexC_hexDigitUpper hlo⟩)]
        simp only [List.headD_cons, List.drop_succ_cons, List.drop_zero]
        rw [hexVal_hexDigitUpper hhi, hexVal_hexDigitUpper hlo, Nat.div_add_mod,
          Char.ofNat_toNat]
        exact congrArg (List.cons c) ih

theorem eq_char_not_mem_encode {k : List Char} (hk : ∀ c ∈ k, c.toNat < 128) :
    '=' ∉ formEncode k := by
  intro hmem
  obtain ⟨c, hc, hcd⟩ := mem_formEncode hmem
  have := (formEncodeChar_facts (hk c hc) hcd).2.2.2.2
  exact this rfl

theorem amp_not_mem_piece {k v : List Char} (hk : ∀ c ∈ k, c.toNat < 128)
    (hv : ∀ c ∈ v, c.toNat < 128) :
    '&' ∉ formEncode k ++ '=' :: formEncode v := by
  intro hmem
  rcases List.mem_append.mp hmem with hm | hm
  · obtain ⟨c, hc, hcd⟩ := mem_formEncode hm
    exact (formEncodeChar_facts (hk c hc) hcd).2.2.2.1 rfl
  · rcases List.mem_cons.mp hm with he | hm
    · exact absurd he (by decide)
    · obtain ⟨c, hc, hcd⟩ := mem_formEncode hm
      exact (formEncodeChar_facts (hv c hc) hcd).2.2.2.1 rfl

theorem parseQueryPairsCh_serialize :
    ∀ ps : List (List Char × List Char), pairsAscii ps →
      parseQueryPairsCh (serializePairsCh ps) = ps
  | [], _ => rfl
  | p :: rest, hps => by
    have hpieces := splitOnChar_joinChar '&'
      ((p :: rest).map fun kv => formEncode kv.1 ++ '=' :: formEncode kv.2)
      (by simp)
      (by
        intro piece hp
        obtain ⟨kv, hkv, he⟩ := List.mem_map.mp hp
        exact he ▸ amp_not_mem_piece (hps kv hkv).1 (hps kv hkv).2)
    show ((splitOnChar '&' (joinChar '&' ((p :: rest).map fun kv =>
        formEncode kv.1 ++ '=' :: formEncode kv.2))).filterMap fun piece =>
        if piece = [] then none
        else
          some (decodePiece (piece.takeWhile fun c => !(c == '=')),
            decodePiece (match piece.dropWhile fun c => !(c == '=') with
              | [] => ([] : List Char)
              | _ :: tl => tl))) = p :: rest
    rw [hpieces, List.filterMap_map]
    have hpoint : ∀ l : List (List Char × List Char), pairsAscii l →
        (l.filterMap ((fun piece =>
          if piece = [] then none
          else
            some (decodePiece (piece.takeWhile fun c => !(c == '=')),
              decodePiece (match piece.dropWhile fun c => !(c == '=') with
                | [] => ([] : List Char)
                | _ :: tl => tl))) ∘ fun kv =>
          formEncode kv.1 ++ '=' :: formEncode kv.2)) = l := by
      intro l hl
      induction l with
      | nil => rfl
      | cons kv tl ih =>
        obtain ⟨hk, hv⟩ := hl kv (by simp)
        have hsp := takeWhile_middle (fun c => !(c == '=')) '=' (formEncode kv.2)
          (by decide) (formEncode kv.1)
          (by
            intro x hx
            simp only [Bool.not_eq_true']
            rw [beq_eq_false_iff_ne]
            exact fun he => eq_char_not_mem_encode hk (he ▸ hx))
        simp only [List.filterMap_cons, Function.comp]
        rw [if_neg (by simp), hsp.1, hsp.2]
        simp only [decodePiece_formEncode kv.1 hk, decodePiece_formEncode kv.2 hv]
        rw [ih fun x hx => hl x (List.mem_cons_of_mem _ hx)]
    exact hpoint (p :: rest) hps

theorem splitOnChar_ne_nil (sep : Char) : ∀ l : List Char, splitOnChar sep l ≠ []
  | [] => by simp [splitOnChar]
  | c :: cs => by
    rw [splitOnChar]
    by_cases hc : (c == sep) = true
    · simp [hc]
    · rw [if_neg hc]
      cases hsp : splitOnChar sep cs with
      | nil => exact absurd hsp (splitOnChar_ne_nil sep cs)
      | cons p ps => simp

theorem splitOnChar_cons_ne {sep c : Char} (hc : (c == sep) = false) (l : List Char) :
    ∃ p ps, splitOnChar sep l = p :: ps ∧ splitOnChar sep (c :: l) = (c :: p) :: ps := by
  cases hsp : splitOnChar sep l with
  | nil => exact absurd hsp (splitOnChar_ne_nil sep l)
  | cons p ps =>
    refine ⟨p, ps, rfl, ?_⟩
    rw [splitOnChar, if_neg (by simp [hc]), hsp]

theorem splitOnChar_mem_sub (sep : Char) :
    ∀ l : List Char, ∀ piece ∈ splitOnChar sep l, ∀ c ∈ piece, c ∈ l
  | [], piece, hp, c, hc => by
    simp [splitOnChar] at hp
    subst hp
    simp at hc
  | x :: xs, piece, hp, c, hc => by
    rw [splitOnChar] at hp
    by_cases hx : (x == sep) = true
    · rw [if_pos hx] at hp
      rcases List.mem_cons.mp hp with he | hm
      · subst he; simp at hc
      · exact List.mem_cons_of_mem _ (splitOnChar_mem_sub sep xs piece hm c hc)
    · rw [if_neg hx] at hp
      cases hsp : splitOnChar sep xs with
      | nil => exact absurd hsp (splitOnChar_ne_nil sep xs)
      | cons p ps =>
        rw [hsp] at hp
        rcases List.mem_cons.mp hp with he | hm
        · subst he
          rcases List.mem_cons.mp hc with he2 | hm2
          · exact he2 ▸ List.mem_cons_self _ _
          · exact List.mem_cons_of_mem _
              (splitOnChar_mem_sub sep xs p (hsp ▸ List.mem_cons_self _ _) c hm2)
        · exact List.mem_cons_of_mem _
            (splitOnChar_mem_sub sep xs piece (hsp ▸ List.mem_cons_of_mem _ hm) c hc)

theorem isHexC_toNat {c : Char} (h : isHexC c = true) :
    48 ≤ c.toNat ∧ c.toNat ≤ 57 ∨ 65 ≤ c.toNat ∧ c.toNat ≤ 70 ∨
      97 ≤ c.toNat ∧ c.toNat ≤ 102 := by
  simp only [isHexC, isDigitC, Bool.or_eq_true, Bool.and_eq_true,
    decide_eq_true_eq] at h
  rcases h with (⟨h1, h2⟩ | ⟨h1, h2⟩) | ⟨h1, h2⟩ <;> omega

theorem hexVal_lt_16 {c : Char} (h : isHexC c = true) : hexVal c < 16 := by
  rcases isHexC_toNat h with h1 | h1 | h1 <;>
    · rw [hexVal]
      by_cases hd : isDigitC c = true
      · rw [if_pos hd]
        simp only [isDigitC, Bool.and_eq_true, decide_eq_true_eq] at hd
        omega
      · rw [if_neg hd]
        simp only [isDigitC, Bool.and_eq_true, decide_eq_true_eq, not_and] at hd
        by_cases h70 : c.toNat ≤ 70
        · rw [if_pos h70]; omega
        · rw [if_neg h70]; omega

theorem isHexC_beq_char_false {c : Char} (h : isHexC c = true) {d : Char}
    (hd : ¬ (48 ≤ d.toNat ∧ d.toNat ≤ 57 ∨ 65 ≤ d.toNat ∧ d.toNat ≤ 70 ∨
      97 ≤ d.toNat ∧ d.toNat ≤ 102)) : (c == d) = false := by
  have hne : c.toNat ≠ d.toNat := by
    rcases isHexC_toNat h with h1 | h1 | h1 <;> omega
  simp only [beq_eq_false_iff_ne, ne_eq]
  exact char_ne_of_toNat_ne hne

theorem escapesOk_split {l : List Char} (hE : escapesOk l = true) :
    ∀ piece ∈ splitOnChar '&' l, escapesOk piece = true := by
  have H : ∀ n (l : List Char), l.length ≤ n → escapesOk l = true →
      ∀ piece ∈ splitOnChar '&' l, escapesOk piece = true := by
    intro n
    induction n with
    | zero =>
      intro l hl _ piece hp
      have hnil : l = [] := List.length_eq_zero.mp (by omega)
      subst hnil
      simp [splitOnChar] at hp
      subst hp
      rfl
    | succ n ih =>
      intro l hl hE piece hp
      cases l with
      | nil =>
        simp [splitOnChar] at hp
        subst hp
        rfl
      | cons c rest =>
        simp only [List.length_cons] at hl
        by_cases hamp : (c == '&') = true
        · have hcp : (c == '%') = false := by
            have hce : c = '&' := by simpa using hamp
            subst hce
            decide
          rw [escapesOk_cons, if_neg (by simp [hcp])] at hE
          rw [splitOnChar, if_pos hamp] at hp
          rcases List.mem_cons.mp hp with he | hm
          · subst he; rfl
          · exact ih rest (by omega) hE piece hm
        · by_cases hpct : (c == '%') = true
          · rw [escapesOk_cons, if_pos hpct] at hE
            simp only [Bool.and_eq_true, decide_eq_true_eq] at hE
            obtain ⟨⟨⟨⟨hlen, hx1⟩, hx2⟩, hlt⟩, hrest⟩ := hE
            cases rest with
            | nil => simp at hlen
            | cons h1 rest1 =>
              cases rest1 with
              | nil => simp at hlen
              | cons h2 rest2 =>
                simp only [List.headD, List.drop] at hx1 hx2 hlt hrest
                have h1ne : (h1 == '&') = false := isHexC_beq_char_false hx1 (by decide)
                have h2ne : (h2 == '&') = false := isHexC_beq_char_false hx2 (by decide)
                obtain ⟨p, ps, hps, hsp2⟩ := splitOnChar_cons_ne h2ne rest2
                obtain ⟨p1, ps1, hps1, hsp1⟩ := splitOnChar_cons_ne h1ne (h2 :: rest2)
                rw [hsp2] at hps1
                obtain ⟨he1, he2⟩ : h2 :: p = p1 ∧ ps = ps1 := by
                  have := hps1
                  injection this with ha hb
                  exact ⟨ha, hb⟩
                obtain ⟨p0, ps0, hps0, hsp0⟩ :=
                  splitOnChar_cons_ne (by simpa using hamp) (h1 :: h2 :: rest2)
                rw [hsp1] at hps0
                obtain ⟨hf1, hf2⟩ : h1 :: p1 = p0 ∧ ps1 = ps0 := by
                  have := hps0
                  injection this with ha hb
                  exact ⟨ha, hb⟩
                rw [hsp0] at hp
                have hlen2 : rest2.length ≤ n := by
                  simp only [List.length_cons] at hl
                  omega
                rcases List.mem_cons.mp hp with he | hm
                · subst he
                  rw [← hf1, ← he1]
                  rw [escapesOk_cons, if_pos hpct]
                  have hpok : escapesOk p = true :=
                    ih rest2 hlen2 hrest p (hps ▸ List.mem_cons_self _ _)
                  simp only [List.length_cons, List.headD, List.drop]
                  simp [hx1, hx2, hlt, hpok]
                · rw [← hf2, ← he2] at hm
                  exact ih rest2 hlen2 hrest piece
                    (hps ▸ List.mem_cons_of_mem _ hm)
          · rw [escapesOk_cons, if_neg hpct] at hE
            obtain ⟨p, ps, hps, hsp⟩ := splitOnChar_cons_ne (by simpa using hamp) rest
            rw [hsp] at hp
            rcases List.mem_cons.mp hp with he | hm
            · subst he
              rw [escapesOk_cons, if_neg hpct]
              exact ih rest (by omega) hE p (hps ▸ List.mem_cons_self _ _)
            · exact ih rest (by omega) hE piece (hps ▸ List.mem_cons_of_mem _ hm)
  exact H l.length l le_rfl hE

theorem percentDecode_ascii {l : List Char} (hA : ∀ c ∈ l, c.toNat < 128)
    (hE : escapesOk l = true) : ∀ c ∈ percentDecode l, c.toNat < 128 := by
  have H : ∀ n (l : List Char), l.length ≤ n → (∀ c ∈ l, c.toNat < 128) →
      escapesOk l = true → ∀ c ∈ percentDecode l, c.toNat < 128 := by
    intro n
    induction n with
    | zero =>
      intro l hl _ _ c hc
      have hnil : l = [] := List.length_eq_zero.mp (by omega)
      subst hnil
      simp [percentDecode, percentDecodeAux] at hc
    | succ n ih =>
      intro l hl hA hE c hc
      cases l with
      | nil => simp [percentDecode, percentDecodeAux] at hc
      | cons x rest =>
        simp only [List.length_cons] at hl
        by_cases hx : (x == '%') = true
        · rw [escapesOk_cons, if_pos hx] at hE
          simp only [Bool.and_eq_true, decide_eq_true_eq] at hE
          obtain ⟨⟨⟨⟨hlen, hx1⟩, hx2⟩, hlt⟩, hrest⟩ := hE
          rw [percentDecode_cons, if_pos (by rw [hx, hx1, hx2]; simp [hlen])] at hc
          rcases List.mem_cons.mp hc with he | hm
          · subst he
            have hv2 : hexVal ((rest.drop 1).headD ' ') < 16 := hexVal_lt_16 hx2
            rw [toNat_ofNat_small _ (by omega)]
            omega
          · exact ih (rest.drop 2) (by simp only [List.length_drop]; omega)
              (fun d hd => hA d (List.mem_cons_of_mem _ (List.drop_subset 2 rest hd)))
              hrest c hm
        · rw [escapesOk_cons, if_neg hx] at hE
          rw [percentDecode_cons, if_neg (by simp [hx])] at hc
          rcases List.mem_cons.mp hc with he | hm
          · subst he
            exact hA _ (List.mem_cons_self _ _)
          · exact ih rest (by omega) (fun d hd => hA d (List.mem_cons_of_mem _ hd)) hE c hm
  exact H l.length l le_rfl hA hE

theorem plusMap_ascii {l : List Char} (hA : ∀ c ∈ l, c.toNat < 128) :
    ∀ c ∈ l.map (fun c => if c == '+' then ' ' else c), c.toNat < 128 := by
  intro c hc
  obtain ⟨d, hd, he⟩ := List.mem_map.mp hc
  by_cases hp : (d == '+') = true
  · rw [if_pos hp] at he
    subst he
    decide
  · rw [if_neg hp] at he
    subst he
    exact hA d hd

theorem escapesOk_plusMap {l : List Char} (hE : escapesOk l = true) :
    escapesOk (l.map fun c => if c == '+' then ' ' else c) = true := by
  have H : ∀ n (l : List Char), l.length ≤ n → escapesOk l = true →
      escapesOk (l.map fun c => if c == '+' then ' ' else c) = true := by
    intro n
    induction n with
    | zero =>
      intro l hl _
      have hnil : l = [] := List.length_eq_zero.mp (by omega)
      subst hnil
      rfl
    | succ n ih =>
      intro l hl hE
      cases l with
      | nil => rfl
      | cons x rest =>
        simp only [List.length_cons] at hl
        simp only [List.map_cons]
        by_cases hx : (x == '%') = true
        · have hxe : x = '%' := by simpa using hx
          subst hxe
          rw [escapesOk_cons, if_pos (by decide)] at hE
          simp only [Bool.and_eq_true, decide_eq_true_eq] at hE
          obtain ⟨⟨⟨⟨hlen, hx1⟩, hx2⟩, hlt⟩, hrest⟩ := hE
          cases rest with
          | nil => simp at hlen
          | cons h1 rest1 =>
            cases rest1 with
            | nil => simp at hlen
            | cons h2 rest2 =>
              simp only [List.headD, List.drop] at hx1 hx2 hlt hrest
              have e0 : (fun c => if c == '+' then ' ' else c) '%' = '%' := rfl
              have h1p : (h1 == '+') = false := isHexC_beq_char_false hx1 (by decide)
              have h2p : (h2 == '+') = false := isHexC_beq_char_false hx2 (by decide)
              have e1 : (fun c => if c == '+' then ' ' else c) h1 = h1 := by
                show (if h1 == '+' then ' ' else h1) = h1
                rw [if_neg (by simp [h1p])]
              have e2 : (fun c => if c == '+' then ' ' else c) h2 = h2 := by
                show (if h2 == '+' then ' ' else h2) = h2
                rw [if_neg (by simp [h2p])]
              simp only [List.map_cons, e0, e1, e2]
              rw [escapesOk_cons, if_pos (by decide)]
              have hihr : escapesOk (rest2.map fun c => if c == '+' then ' ' else c) = true :=
                ih rest2 (by simp only [List.length_cons] at hl; omega) hrest
              simp only [List.length_cons, List.headD, List.drop]
              rw [hx1, hx2, hihr]
              simp only [Bool.and_true, Bool.true_and, Bool.and_eq_true, decide_eq_true_eq]
              exact ⟨by omega, hlt⟩
        · rw [escapesOk_cons, if_neg hx] at hE
          have hfx : (((fun c => if c == '+' then ' ' else c) x : Char) == '%') = false := by
            by_cases hp : (x == '+') = true
            · have hxe : x = '+' := by simpa using hp
              subst hxe
              decide
            · show ((if x == '+' then ' ' else x) == '%') = false
              rw [if_neg hp]
              simpa using hx
          rw [escapesOk_cons, if_neg (fun h => by rw [h] at hfx; exact absurd hfx (by decide))]
          exact ih rest (by omega) hE
  exact H l.length l le_rfl hE

theorem decodePiece_ascii {l : List Char} (hA : ∀ c ∈ l, c.toNat < 128)
    (hE : escapesOk l = true) : ∀ c ∈ decodePiece l, c.toNat < 128 := by
  rw [decodePiece]
  exact percentDecode_ascii (plusMap_ascii hA) (escapesOk_plusMap hE)

theorem escapesOk_eq_split {piece : List Char} (hE : escapesOk piece = true) :
    escapesOk (piece.takeWhile fun c => !(c == '=')) = true ∧
      escapesOk (match piece.dropWhile (fun c => !(c == '=')) with
        | [] => ([] : List Char)
        | _ :: tl => tl) = true := by
  have H : ∀ n (l : List Char), l.length ≤ n → escapesOk l = true →
      escapesOk (l.takeWhile fun c => !(c == '=')) = true ∧
      escapesOk (match l.dropWhile (fun c => !(c == '=')) with
        | [] => ([] : List Char)
        | _ :: tl => tl) = true := by
    intro n
    induction n with
    | zero =>
      intro l hl _
      have hnil : l = [] := List.length_eq_zero.mp (by omega)
      subst hnil
      exact ⟨rfl, rfl⟩
    | succ n ih =>
      intro l hl hE
      cases l with
      | nil => exact ⟨rfl, rfl⟩
      | cons c rest =>
        simp only [List.length_cons] at hl
        by_cases heq : (c == '=') = true
        · have hcp : (c == '%') = false := by
            have hce : c = '=' := by simpa using heq
            subst hce
            decide
          rw [escapesOk_cons, if_neg (by simp [hcp])] at hE
          constructor
          · rw [List.takeWhile_cons, if_neg (by simp [heq])]
            rfl
          · rw [List.dropWhile_cons, if_neg (by simp [heq])]
            exact hE
        · by_cases hpct : (c == '%') = true
          · rw [escapesOk_cons, if_pos hpct] at hE
            simp only [Bool.and_eq_true, decide_eq_true_eq] at hE
            obtain ⟨⟨⟨⟨hlen, hx1⟩, hx2⟩, hlt⟩, hrest⟩ := hE
            cases rest with
            | nil => simp at hlen
            | cons h1 rest1 =>
              cases rest1 with
              | nil => simp at hlen
              | cons h2 rest2 =>
                simp only [List.headD, List.drop] at hx1 hx2 hlt hrest
                have h1e : (h1 == '=') = false := isHexC_beq_char_false hx1 (by decide)
                have h2e : (h2 == '=') = false := isHexC_beq_char_false hx2 (by decide)
                have hlen2 : rest2.length ≤ n := by
                  simp only [List.length_cons] at hl
                  omega
                obtain ⟨ihT, ihD⟩ := ih rest2 hlen2 hrest
                constructor
                · rw [List.takeWhile_cons, if_pos (by simp [heq]),
                    List.takeWhile_cons, if_pos (by simp [h1e]),
                    List.takeWhile_cons, if_pos (by simp [h2e])]
                  rw [escapesOk_cons, if_pos hpct]
                  simp only [List.length_cons, List.headD, List.drop]
                  rw [hx1, hx2, ihT]
                  simp only [Bool.and_true, Bool.true_and, Bool.and_eq_true,
                    decide_eq_true_eq]
                  exact ⟨by omega, hlt⟩
                · rw [List.dropWhile_cons, if_pos (by simp [heq]),
                    List.dropWhile_cons, if_pos (by simp [h1e]),
                    List.dropWhile_cons, if_pos (by simp [h2e])]
                  exact ihD
          · rw [escapesOk_cons, if_neg hpct] at hE
            obtain ⟨ihT, ihD⟩ := ih rest (by omega) hE
            constructor
            · rw [List.takeWhile_cons, if_pos (by simp [heq])]
              rw [escapesOk_cons, if_neg hpct]
              exact ihT
            · rw [List.dropWhile_cons, if_pos (by simp [heq])]
              exact ihD
  exact H piece.length piece le_rfl hE

theorem matchTail_sub {vr : List Char} {c : Char}
    (hc : c ∈ (match vr with | [] => ([] : List Char) | _ :: tl => tl)) : c ∈ vr := by
  cases vr with
  | nil => simp at hc
  | cons x tl => exact List.mem_cons_of_mem _ hc

theorem parse_pairs_ascii {q : List Char} (hq : queryOk q = true) :
    pairsAscii (parseQueryPairsCh q) := by
  obtain ⟨hqA, hqE⟩ : q.all isQueryChar = true ∧ escapesOk q = true := by
    simpa [queryOk, Bool.and_eq_true] using hq
  intro kv hkv
  rw [parseQueryPairsCh] at hkv
  obtain ⟨piece, hpmem, hpe⟩ := List.mem_filterMap.mp hkv
  by_cases hnil : piece = []
  · rw [if_pos hnil] at hpe
    exact absurd hpe (by simp)
  · rw [if_neg hnil] at hpe
    injection hpe with hpe
    have hpieceE : escapesOk piece = true := escapesOk_split hqE piece hpmem
    have hpieceA : ∀ c ∈ piece, c.toNat < 128 := by
      intro c hc
      have hcq : c ∈ q := splitOnChar_mem_sub '&' q piece hpmem c hc
      have hcQ := List.all_eq_true.mp hqA c hcq
      simp only [isQueryChar, Bool.and_eq_true, decide_eq_true_eq] at hcQ
      omega
    obtain ⟨hkE, hvE⟩ := escapesOk_eq_split hpieceE
    subst hpe
    constructor
    · intro c hc
      exact decodePiece_ascii
        (fun d hd => hpieceA d ((List.takeWhile_sublist _).subset hd)) hkE c hc
    · intro c hc
      exact decodePiece_ascii
        (fun d hd => hpieceA d ((List.dropWhile_sublist _).subset (matchTail_sub hd)))
        hvE c hc

theorem lowerChar_idem (c : Char) : lowerChar (lowerChar c) = lowerChar c := by
  by_cases h : 65 ≤ c.toNat ∧ c.toNat ≤ 90
  · have ht : (lowerChar c).toNat = c.toNat + 32 := lowerChar_upper h
    rw [lowerChar, if_neg (by rw [ht]; omega)]
  · have hfix : lowerChar c = c := by rw [lowerChar, if_neg h]
    rw [hfix, hfix]

theorem lowerCh_idem (l : List Char) : lowerCh (lowerCh l) = lowerCh l := by
  induction l with
  | nil => rfl
  | cons c cs ih =>
    simp only [lowerCh, List.map_cons] at ih ⊢
    rw [lowerChar_idem, ih]

theorem parseAuthority_sound {auth host : List Char} {port : Option Nat}
    (h : parseAuthority auth = some (host, port)) :
    host ≠ [] ∧ host.all isHostChar = true ∧ ∀ p, port = some p → p < 65536 := by
  simp only [parseAuthority] at h
  split at h
  · exact absurd h (by simp)
  · split at h
    · exact absurd h (by simp)
    · rename_i hhost
      push_neg at hhost
      obtain ⟨hne, hall⟩ := hhost
      split at h
      · rename_i hrest
        simp only [Option.some.injEq, Prod.mk.injEq] at h
        obtain ⟨hh, hp⟩ := h
        subst hh
        refine ⟨hne, hall, fun p hp2 => ?_⟩
        rw [← hp] at hp2
        exact absurd hp2 (by simp)
      · rename_i d ds hrest
        split at h
        · rename_i hds
          simp only [Option.some.injEq, Prod.mk.injEq] at h
          obtain ⟨hh, hp⟩ := h
          subst hh
          refine ⟨hne, hall, fun p hp2 => ?_⟩
          rw [← hp] at hp2
          have hfold := hds.2.2
          simp only [Option.some.injEq] at hp2
          omega
        · exact absurd h (by simp)

theorem parseQF_sound {pa qf pa2 : List Char} {q fr : Option (List Char)}
    (h : parseQF pa qf = some (pa2, q, fr)) :
    pa2 = pa ∧ ∀ qc, q = some qc → queryOk qc = true := by
  simp only [parseQF] at h
  split at h
  · rename_i hqok
    split at h
    · simp only [Option.some.injEq, Prod.mk.injEq] at h
      obtain ⟨h1, h2, h3⟩ := h
      subst h1
      refine ⟨rfl, fun qc hqc => ?_⟩
      rw [← h2] at hqc
      simp only [Option.some.injEq] at hqc
      subst hqc
      exact hqok
    · rename_i f hr4
      simp only [Option.some.injEq, Prod.mk.injEq] at h
      obtain ⟨h1, h2, h3⟩ := h
      subst h1
      refine ⟨rfl, fun qc hqc => ?_⟩
      rw [← h2] at hqc
      simp only [Option.some.injEq] at hqc
      subst hqc
      exact hqok
    · exact absurd h (by simp)
  · exact absurd h (by simp)

theorem parseTail_sound {rest pa : List Char} {q fr : Option (List Char)}
    (h : parseTail rest = some (pa, q, fr)) :
    (∃ t, pa = '/' :: t) ∧ pathOk pa = true ∧
      ∀ qc, q = some qc → queryOk qc = true := by
  rw [parseTail.eq_def] at h
  split at h
  · simp only [Option.some.injEq, Prod.mk.injEq] at h
    obtain ⟨h1, h2, h3⟩ := h
    subst h1
    exact ⟨⟨[], rfl⟩, by decide, fun qc hqc => absurd (h2 ▸ hqc) (by simp)⟩
  · rename_i qf
    obtain ⟨h1, h2⟩ := parseQF_sound h
    subst h1
    exact ⟨⟨[], rfl⟩, by decide, h2⟩
  · rename_i f
    simp only [Option.some.injEq, Prod.mk.injEq] at h
    obtain ⟨h1, h2, h3⟩ := h
    subst h1
    exact ⟨⟨[], rfl⟩, by decide, fun qc hqc => absurd (h2 ▸ hqc) (by simp)⟩
  · rename_i tl
    simp only [] at h
    split at h
    · rename_i hpok
      have hpa : ∃ t,
          List.takeWhile (fun c => !(c == '?') && !(c == '#')) ('/' :: tl) = '/' :: t := by
        rw [List.takeWhile_cons, if_pos (by decide)]
        exact ⟨List.takeWhile _ tl, rfl⟩
      split at h
      · simp only [Option.some.injEq, Prod.mk.injEq] at h
        obtain ⟨h1, h2, h3⟩ := h
        subst h1
        exact ⟨hpa, hpok, fun qc hqc => absurd (h2 ▸ hqc) (by simp)⟩
      · rename_i qf hr3
        obtain ⟨h1, h2⟩ := parseQF_sound h
        subst h1
        exact ⟨hpa, hpok, h2⟩
      · rename_i f hr3
        simp only [Option.some.injEq, Prod.mk.injEq] at h
        obtain ⟨h1, h2, h3⟩ := h
        subst h1
        exact ⟨hpa, hpok, fun qc hqc => absurd (h2 ▸ hqc) (by simp)⟩
      · exact absurd h (by simp)
    · exact absurd h (by simp)
  · exact absurd h (by simp)

theorem parseUrl_sound {s : String} {u : UrlM} (h : parseUrl s = some u) :
    lowerCh u.scheme.data = u.scheme.data ∧
    u.host.data ≠ [] ∧ u.host.data.all isHostChar = true ∧
    lowerCh u.host.data = u.host.data ∧
    (∀ p, u.port = some p → p < 65536 ∧
      dropDefaultPort u.scheme.data (some p) = some p) ∧
    (∃ t, u.path.data = '/' :: t) ∧ pathOk u.path.data = true ∧
    (∀ qc, u.query = some qc → queryOk qc.data = true) := by
  simp only [parseUrl] at h
  split at h
  · rename_i r hrest
    split at h
    · rename_i hguard
      split at h
      · exact absurd h (by simp)
      · rename_i host port hauth
        split at h
        · exact absurd h (by simp)
        · rename_i pa q fr htail
          obtain ⟨hh1, hh2, hh3⟩ := parseAuthority_sound hauth
          obtain ⟨ht1, ht2, ht3⟩ := parseTail_sound htail
          simp only [Option.some.injEq] at h
          subst h
          refine ⟨?_, ?_, ?_, ?_, ?_, ?_, ?_, ?_⟩
          · exact lowerCh_idem _
          · simpa [lowerCh] using hh1
          · exact (lowerCh_all_host hh2).1
          · exact (lowerCh_all_host hh2).2
          · intro p hp
            dsimp only at hp
            cases port with
            | none => simp [dropDefaultPort] at hp
            | some pv =>
              simp only [dropDefaultPort] at hp
              split at hp
              · exact absurd hp (by simp)
              · rename_i hnd
                simp only [Option.some.injEq] at hp
                subst hp
                refine ⟨hh3 pv rfl, ?_⟩
                dsimp only
                simp only [dropDefaultPort]
                rw [if_neg hnd]
          · exact ht1
          · exact ht2
          · intro qc hqc
            dsimp only at hqc
            cases q with
            | none => simp at hqc
            | some ql =>
              simp only [Option.map_some', Option.some.injEq] at hqc
              subst hqc
              exact ht3 ql rfl
    · exact absurd h (by simp)
  · exact absurd h (by simp)

theorem normalize_sound {x y : String} (h : normalize_crawl_url x = some y) :
    ∃ u : UrlM, IsCanonical u ∧ y = UrlM.toStr u := by
  simp only [normalize_crawl_url] at h
  split at h
  · exact absurd h (by simp)
  · split at h
    · exact absurd h (by simp)
    · rename_i url hparse
      split at h
      · exact absurd h (by simp)
      · rename_i hsch
        rw [not_not] at hsch
        simp only [Option.some.injEq] at h
        subst h
        obtain ⟨hs1, hh1, hh2, hh3, hport, hpath, hpok, hquery⟩ := parseUrl_sound hparse
        have hschData : url.scheme.data = "http".data ∨ url.scheme.data = "https".data := by
          rw [← hs1]
          exact hsch
        refine ⟨{ url with
            query :=
              if ((queryPairsOf url).filter fun kv => !is_tracking_query_param kv.1) = []
              then none
              else some
                ⟨serializePairsCh
                  ((queryPairsOf url).filter fun kv => !is_tracking_query_param kv.1)⟩
            fragment := none }, ⟨?_, hh1, hh2, hh3, ?_, hpath, hpok, ?_, rfl⟩, rfl⟩
        · rcases hschData with hd | hd
          · exact Or.inl (String.ext hd)
          · exact Or.inr (String.ext hd)
        · show portCanon url.scheme url.port
          cases hp : url.port with
          | none => exact trivial
          | some p => exact ⟨(hport p hp).1, (hport p hp).2⟩
        · by_cases hk :
            ((queryPairsOf url).filter fun kv => !is_tracking_query_param kv.1) = []
          · show queryCanon _
            rw [if_pos hk]
            exact trivial
          · show queryCanon _
            rw [if_neg hk]
            refine ⟨_, hk, ?_, ?_, rfl⟩
            · intro kv hkv
              have hkv2 := List.mem_of_mem_filter hkv
              rw [queryPairsOf] at hkv2
              cases hq : url.query with
              | none =>
                rw [hq] at hkv2
                simp at hkv2
              | some qs =>
                rw [hq] at hkv2
                exact parse_pairs_ascii (hquery qs hq) kv hkv2
            · intro kv hkv
              have := (List.mem_filter.mp hkv).2
              simpa using this

theorem beq_false_of_toNat_ne {c d : Char} (h : c.toNat ≠ d.toNat) : (c == d) = false := by
  simp only [beq_eq_false_iff_ne, ne_eq]
  exact char_ne_of_toNat_ne h

theorem isDigitC_toNat {c : Char} (h : isDigitC c = true) :
    48 ≤ c.toNat ∧ c.toNat ≤ 57 := by
  simpa [isDigitC, Bool.and_eq_true, decide_eq_true_eq] using h

theorem contains_false_of_beq {l : List Char} {d : Char}
    (h : ∀ c ∈ l, (d == c) = false) : l.contains d = false := by
  rw [List.contains_eq_any_beq]
  exact List.any_eq_false.mpr fun x hx => by simp [h x hx]

theorem parseAuthority_render {host : List Char} (hne : host ≠ [])
    (hall : host.all isHostChar = true) (port : Option Nat)
    (hport : ∀ p, port = some p → p < 65536) :
    parseAuthority (host ++ portTail port) = some (host, port) := by
  have hhost := fun c hc => List.all_eq_true.mp hall c hc
  have hguard : ¬ (host = [] ∨ ¬ host.all isHostChar = true) :=
    not_or.mpr ⟨hne, not_not_intro hall⟩
  have hpred : ∀ c ∈ host, ((fun c => !(c == ':')) c) = true := by
    intro c hc
    simp only [Bool.not_eq_true']
    refine beq_false_of_toNat_ne ?_
    have h58 : (':').toNat = 58 := rfl
    rcases isHostChar_toNat (hhost c hc) with h1 | h1 | h1 | h1 | h1 | h1 <;> omega
  have hhostsafe : ∀ c ∈ host, ∀ d : Char,
      d.toNat = 64 ∨ d.toNat = 91 ∨ d.toNat = 93 → (d == c) = false := by
    intro c hc d hd
    refine beq_false_of_toNat_ne ?_
    rcases isHostChar_toNat (hhost c hc) with h1 | h1 | h1 | h1 | h1 | h1 <;> omega
  cases port with
  | none =>
    show parseAuthority (host ++ []) = some (host, none)
    rw [List.append_nil]
    simp only [parseAuthority]
    rw [if_neg (by
      simp only [Bool.or_eq_true, not_or]
      refine ⟨⟨?_, ?_⟩, ?_⟩ <;>
        · rw [contains_false_of_beq]
          · simp
          · intro c hc
            exact hhostsafe c hc _ (by decide))]
    obtain ⟨hTW, hDW⟩ := takeWhile_all hpred
    rw [hTW, hDW, if_neg hguard]
  | some p =>
    have hp : p < 65536 := hport p rfl
    show parseAuthority (host ++ ':' :: natDigits p) = some (host, some p)
    have hdigitsafe : ∀ c ∈ (':' :: natDigits p), ∀ d : Char,
        d.toNat = 64 ∨ d.toNat = 91 ∨ d.toNat = 93 → (d == c) = false := by
      intro c hc d hd
      rcases List.mem_cons.mp hc with he | hm
      · subst he
        refine beq_false_of_toNat_ne ?_
        have h58 : (':').toNat = 58 := rfl
        omega
      · have := isDigitC_toNat (List.all_eq_true.mp (natDigits_all_digit p) c hm)
        refine beq_false_of_toNat_ne ?_
        omega
    simp only [parseAuthority]
    rw [if_neg (by
      simp only [Bool.or_eq_true, not_or]
      refine ⟨⟨?_, ?_⟩, ?_⟩ <;>
        · rw [contains_false_of_beq]
          · simp
          · intro c hc
            rcases List.mem_append.mp hc with hm | hm
            · exact hhostsafe c hm _ (by decide)
            · exact hdigitsafe c hm _ (by decide))]
    obtain ⟨hTW, hDW⟩ :=
      takeWhile_middle (fun c => !(c == ':')) ':' (natDigits p) (by decide) host hpred
    rw [hTW, hDW, if_neg hguard]
    show (if natDigits p ≠ [] ∧ (natDigits p).all isDigitC = true ∧
        foldDigits (natDigits p) < 65536 then
      some (host, some (foldDigits (natDigits p))) else none) = some (host, some p)
    rw [if_pos ⟨natDigits_ne_nil p, natDigits_all_digit p,
      by rw [foldDigits_natDigits]; exact hp⟩, foldDigits_natDigits]

theorem isPathChar_facts {c : Char} (h : isPathChar c = true) :
    (c == '?') = false ∧ (c == '#') = false := by
  rw [isPathChar, Bool.or_eq_true] at h
  rcases h with halnum | hcont
  · simp only [isAlphaNumC, isAlphaC, isUpperC, isLowerC, isDigitC, Bool.or_eq_true,
      Bool.and_eq_true, decide_eq_true_eq] at halnum
    have h63 : ('?').toNat = 63 := rfl
    have h35 : ('#').toNat = 35 := rfl
    constructor <;> refine beq_false_of_toNat_ne ?_ <;>
      (rcases halnum with (⟨a, b⟩ | ⟨a, b⟩) | ⟨a, b⟩ <;> omega)
  · have hmem : c ∈ (['-', '.', '_', '~', '!', '$', '&', '\'', '(', ')', '*', '+', ',',
        '/', ':', ';', '=', '@', '%'] : List Char) := by simpa using hcont
    fin_cases hmem <;> exact ⟨by decide, by decide⟩

theorem parseTail_render {pa t : List Char} (hpa : pa = '/' :: t)
    (hpok : pathOk pa = true) (q : Option (List Char))
    (hq : ∀ qc, q = some qc → queryOk qc = true ∧ ∀ c ∈ qc, (c == '#') = false) :
    parseTail (pa ++ queryTail q) = some (pa, q, none) := by
  have hall : pa.all isPathChar = true := by
    rw [pathOk, Bool.and_eq_true] at hpok
    exact hpok.1
  have hpred : ∀ c ∈ pa, ((fun c => !(c == '?') && !(c == '#')) c) = true := by
    intro c hc
    obtain ⟨hq1, hq2⟩ := isPathChar_facts (List.all_eq_true.mp hall c hc)
    simp [hq1, hq2]
  have htpred : ∀ c ∈ t, ((fun c => !(c == '?') && !(c == '#')) c) = true := by
    intro c hc
    exact hpred c (by rw [hpa]; exact List.mem_cons_of_mem _ hc)
  cases q with
  | none =>
    show parseTail (pa ++ []) = some (pa, none, none)
    rw [List.append_nil]
    subst hpa
    rw [parseTail.eq_def]
    split
    · rename_i heq
      exact absurd heq (by simp)
    · rename_i qf heq
      rw [List.cons.injEq] at heq
      exact absurd heq.1 (by decide)
    · rename_i f heq
      rw [List.cons.injEq] at heq
      exact absurd heq.1 (by decide)
    · obtain ⟨hTW, hDW⟩ := takeWhile_all hpred
      rw [hTW, hDW, if_pos hpok]
    · rename_i hcon
      exact absurd rfl (hcon t)
  | some qc =>
    obtain ⟨hqok, hqsharp⟩ := hq qc rfl
    show parseTail (pa ++ '?' :: qc) = some (pa, some qc, none)
    rw [hpa, List.cons_append, parseTail.eq_def]
    split
    · rename_i heq
      exact absurd heq (by simp)
    · rename_i qf heq
      rw [List.cons.injEq] at heq
      exact absurd heq.1 (by decide)
    · rename_i f heq
      rw [List.cons.injEq] at heq
      exact absurd heq.1 (by decide)
    · have hshape : '/' :: t ++ '?' :: qc = pa ++ '?' :: qc := by rw [hpa]
      obtain ⟨hTW, hDW⟩ :=
        takeWhile_middle (fun c => !(c == '?') && !(c == '#')) '?' qc (by decide) pa hpred
      rw [← List.cons_append, hshape, hTW, hDW, if_pos hpok]
      show parseQF pa qc = some ('/' :: t, some qc, none)
      simp only [parseQF]
      have hqpred : ∀ c ∈ qc, ((fun c => !(c == '#')) c) = true := by
        intro c hc
        simp [hqsharp c hc]
      obtain ⟨hTW2, hDW2⟩ := takeWhile_all hqpred
      rw [hTW2, hDW2, if_pos hqok]
      show some (pa, some qc, none) = some ('/' :: t, some qc, none)
      rw [hpa]
    · rename_i hcon
      exact absurd rfl (hcon (t ++ '?' :: qc))

theorem parseUrl_http (r : List Char) :
    parseUrl ⟨"http".data ++ ':' :: '/' :: '/' :: r⟩ =
      (match parseAuthority
          (r.takeWhile fun c => !(c == '/') && !(c == '?') && !(c == '#')) with
      | none => none
      | some (host, port) =>
        match parseTail
            (r.dropWhile fun c => !(c == '/') && !(c == '?') && !(c == '#')) with
        | none => none
        | some (pa, q, fr) =>
          some { scheme := "http", host := ⟨lowerCh host⟩,
                 port := dropDefaultPort "http".data port, path := ⟨pa⟩,
                 query := q.map fun l => (⟨l⟩ : String),
                 fragment := fr.map fun l => (⟨l⟩ : String) }) := rfl

theorem parseUrl_https (r : List Char) :
    parseUrl ⟨"https".data ++ ':' :: '/' :: '/' :: r⟩ =
      (match parseAuthority
          (r.takeWhile fun c => !(c == '/') && !(c == '?') && !(c == '#')) with
      | none => none
      | some (host, port) =>
        match parseTail
            (r.dropWhile fun c => !(c == '/') && !(c == '?') && !(c == '#')) with
        | none => none
        | some (pa, q, fr) =>
          some { scheme := "https", host := ⟨lowerCh host⟩,
                 port := dropDefaultPort "https".data port, path := ⟨pa⟩,
                 query := q.map fun l => (⟨l⟩ : String),
                 fragment := fr.map fun l => (⟨l⟩ : String) }) := rfl

theorem parseUrl_scheme {s : String} (hs : s = "http" ∨ s = "https") (r : List Char) :
    parseUrl ⟨s.data ++ ':' :: '/' :: '/' :: r⟩ =
      (match parseAuthority
          (r.takeWhile fun c => !(c == '/') && !(c == '?') && !(c == '#')) with
      | none => none
      | some (host, port) =>
        match parseTail
            (r.dropWhile fun c => !(c == '/') && !(c == '?') && !(c == '#')) with
        | none => none
        | some (pa, q, fr) =>
          some { scheme := s, host := ⟨lowerCh host⟩,
                 port := dropDefaultPort s.data port, path := ⟨pa⟩,
                 query := q.map fun l => (⟨l⟩ : String),
                 fragment := fr.map fun l => (⟨l⟩ : String) }) := by
  rcases hs with h | h <;> subst h
  · exact parseUrl_http r
  · exact parseUrl_https r

theorem parseUrl_render {u : UrlM} (hc : IsCanonical u) :
    parseUrl (UrlM.toStr u) = some u := by
  obtain ⟨hsch, hh1, hh2, hh3, hportc, ⟨t, hpath⟩, hpok, hqcanon, hfr⟩ := hc
  have hports : ∀ p, u.port = some p → p < 65536 := by
    intro p hp
    rw [hp] at hportc
    exact hportc.1
  have hdrop : dropDefaultPort u.scheme.data u.port = u.port := by
    cases hp : u.port with
    | none => rfl
    | some p =>
      rw [hp] at hportc
      exact hportc.2
  have hA := parseAuthority_render hh1 hh2 u.port hports
  have hallp3 : ∀ c ∈ u.host.data ++ portTail u.port,
      ((fun c => !(c == '/') && !(c == '?') && !(c == '#')) c) = true := by
    intro c hc2
    have hcn : c.toNat ≠ 47 ∧ c.toNat ≠ 63 ∧ c.toNat ≠ 35 := by
      rcases List.mem_append.mp hc2 with hm | hm
      · rcases isHostChar_toNat (List.all_eq_true.mp hh2 c hm) with
          h1 | h1 | h1 | h1 | h1 | h1 <;> exact ⟨by omega, by omega, by omega⟩
      · cases hp : u.port with
        | none =>
          rw [hp] at hm
          simp [portTail] at hm
        | some p =>
          rw [hp] at hm
          simp only [portTail] at hm
          rcases List.mem_cons.mp hm with he | hm2
          · subst he
            exact ⟨by decide, by decide, by decide⟩
          · have := isDigitC_toNat (List.all_eq_true.mp (natDigits_all_digit p) c hm2)
            exact ⟨by omega, by omega, by omega⟩
    have h47 : ('/').toNat = 47 := rfl
    have h63 : ('?').toNat = 63 := rfl
    have h35 : ('#').toNat = 35 := rfl
    simp only [Bool.and_eq_true, Bool.not_eq_true']
    exact ⟨⟨beq_false_of_toNat_ne (by omega), beq_false_of_toNat_ne (by omega)⟩,
      beq_false_of_toNat_ne (by omega)⟩
  have hu : u = ⟨u.scheme, u.host, u.port, u.path, u.query, u.fragment⟩ := rfl
  cases hq : u.query with
  | none =>
    rw [hq, hfr] at hu
    have hT := parseTail_render hpath hpok none (fun qc h => absurd h (by simp))
    have hT1 : parseTail u.path.data = some (u.path.data, none, none) := by
      rw [show queryTail none = ([] : List Char) from rfl, List.append_nil] at hT
      exact hT
    have hT2 : parseTail ('/' :: t) = some (u.path.data, none, none) := by
      rw [← hpath]
      exact hT1
    have hlist : UrlM.render u = u.scheme.data ++ ':' :: '/' :: '/' ::
        (u.host.data ++ (portTail u.port ++ u.path.data)) := by
      rw [UrlM.render, hq, hfr]
      simp
    have hcs : UrlM.toStr u = ⟨u.scheme.data ++ ':' :: '/' :: '/' ::
        (u.host.data ++ (portTail u.port ++ u.path.data))⟩ := congrArg String.mk hlist
    rw [hcs, parseUrl_scheme hsch]
    have hR : u.host.data ++ (portTail u.port ++ u.path.data) =
        (u.host.data ++ portTail u.port) ++ ('/' :: t) := by
      rw [hpath, List.append_assoc]
    rw [hR]
    obtain ⟨hTW, hDW⟩ := takeWhile_middle
      (fun c => !(c == '/') && !(c == '?') && !(c == '#')) '/' t (by decide)
      (u.host.data ++ portTail u.port)
      hallp3
    rw [hTW, hDW, hA, hT2]
    show some
      ({ scheme := u.scheme, host := String.mk (lowerCh u.host.data),
         port := dropDefaultPort u.scheme.data u.port, path := String.mk u.path.data,
         query := none, fragment := none } : UrlM) = some u
    conv_rhs => rw [hu]
    simp only [Option.some.injEq, UrlM.mk.injEq]
    exact ⟨trivial, congrArg String.mk hh3, hdrop, trivial, trivial, trivial⟩
  | some qs =>
    rw [hq, hfr] at hu
    rw [hq] at hqcanon
    obtain ⟨ps, hpsne, hascii, htrk, hdata⟩ := hqcanon
    have hqfacts : ∀ qc, (some qs.data : Option (List Char)) = some qc →
        queryOk qc = true ∧ ∀ c ∈ qc, (c == '#') = false := by
      intro qc hqc
      have hqe : qs.data = qc := by simpa using hqc
      subst hqe
      constructor
      · rw [hdata]
        exact queryOk_serialize ps hascii
      · intro c hcm
        rw [hdata] at hcm
        have hf := serialize_char_facts hascii hcm
        have h35 : ('#').toNat = 35 := rfl
        exact beq_false_of_toNat_ne (by omega)
    have hT := parseTail_render hpath hpok (some qs.data) hqfacts
    have hT1 : parseTail (u.path.data ++ '?' :: qs.data) =
        some (u.path.data, some qs.data, none) := hT
    have hT2 : parseTail ('/' :: (t ++ '?' :: qs.data)) =
        some (u.path.data, some qs.data, none) := by
      rw [← List.cons_append, ← hpath]
      exact hT1
    have hlist : UrlM.render u = u.scheme.data ++ ':' :: '/' :: '/' ::
        (u.host.data ++ (portTail u.port ++ (u.path.data ++ '?' :: qs.data))) := by
      rw [UrlM.render, hq, hfr]
      simp
    have hcs : UrlM.toStr u = ⟨u.scheme.data ++ ':' :: '/' :: '/' ::
        (u.host.data ++
          (portTail u.port ++ (u.path.data ++ '?' :: qs.data)))⟩ := congrArg String.mk hlist
    rw [hcs, parseUrl_scheme hsch]
    have hR : u.host.data ++ (portTail u.port ++ (u.path.data ++ '?' :: qs.data)) =
        (u.host.data ++ portTail u.port) ++ ('/' :: (t ++ '?' :: qs.data)) := by
      rw [hpath, List.append_assoc, List.cons_append]
    rw [hR]
    obtain ⟨hTW, hDW⟩ := takeWhile_middle
      (fun c => !(c == '/') && !(c == '?') && !(c == '#')) '/' (t ++ '?' :: qs.data)
      (by decide)
      (u.host.data ++ portTail u.port)
      hallp3
    rw [hTW, hDW, hA, hT2]
    show some
      ({ scheme := u.scheme, host := String.mk (lowerCh u.host.data),
         port := dropDefaultPort u.scheme.data u.port, path := String.mk u.path.data,
         query := some qs, fragment := none } : UrlM) = some u
    conv_rhs => rw [hu]
    simp only [Option.some.injEq, UrlM.mk.injEq]
    exact ⟨trivial, congrArg String.mk hh3, hdrop, trivial, trivial, trivial⟩

theorem isWsChar_false_of_toNat {c : Char}
    (h : c.toNat ≠ 32 ∧ c.toNat ≠ 9 ∧ c.toNat ≠ 10 ∧ c.toNat ≠ 13) :
    isWsChar c = false := by
  simp only [isWsChar, Bool.or_eq_false_iff, decide_eq_false_iff_not]
  exact ⟨⟨⟨char_ne_of_toNat_ne h.1, char_ne_of_toNat_ne h.2.1⟩,
    char_ne_of_toNat_ne h.2.2.1⟩, char_ne_of_toNat_ne h.2.2.2⟩

theorem isPathChar_not_ws {c : Char} (h : isPathChar c = true) : isWsChar c = false := by
  rw [isPathChar, Bool.or_eq_true] at h
  rcases h with halnum | hcont
  · simp only [isAlphaNumC, isAlphaC, isUpperC, isLowerC, isDigitC, Bool.or_eq_true,
      Bool.and_eq_true, decide_eq_true_eq] at halnum
    refine isWsChar_false_of_toNat ?_
    rcases halnum with (⟨a, b⟩ | ⟨a, b⟩) | ⟨a, b⟩ <;> exact ⟨by omega, by omega, by omega, by omega⟩
  · have hmem : c ∈ (['-', '.', '_', '~', '!', '$', '&', '\'', '(', ')', '*', '+', ',',
        '/', ':', ';', '=', '@', '%'] : List Char) := by simpa using hcont
    fin_cases hmem <;> decide

theorem render_no_ws {u : UrlM} (hc : IsCanonical u) :
    ∀ c ∈ UrlM.render u, isWsChar c = false := by
  obtain ⟨hsch, hh1, hh2, hh3, hportc, ⟨t, hpath⟩, hpok, hqcanon, hfr⟩ := hc
  intro c hcm
  rw [UrlM.render, hfr] at hcm
  simp only [List.append_assoc, List.cons_append, List.mem_append, List.mem_cons,
    List.append_nil] at hcm
  rcases hcm with hs | hcm
  · rcases hsch with he | he <;> rw [he] at hs
    · exact (show ∀ d ∈ "http".data, isWsChar d = false by decide) c hs
    · exact (show ∀ d ∈ "https".data, isWsChar d = false by decide) c hs
  · rcases hcm with he | hcm
    · subst he; decide
    · rcases hcm with he | hcm
      · subst he; decide
      · rcases hcm with he | hcm
        · subst he; decide
        · rcases hcm with hh | hcm
          · refine isWsChar_false_of_toNat ?_
            rcases isHostChar_toNat (List.all_eq_true.mp hh2 c hh) with
              h1 | h1 | h1 | h1 | h1 | h1 <;> exact ⟨by omega, by omega, by omega, by omega⟩
          · rcases hcm with hp | hcm
            · cases hpo : u.port with
              | none =>
                rw [hpo] at hp
                simp [portTail] at hp
              | some p =>
                rw [hpo] at hp
                simp only [portTail] at hp
                rcases List.mem_cons.mp hp with he | hm2
                · subst he; decide
                · refine isWsChar_false_of_toNat ?_
                  have := isDigitC_toNat
                    (List.all_eq_true.mp (natDigits_all_digit p) c hm2)
                  exact ⟨by omega, by omega, by omega, by omega⟩
            · rcases hcm with hpm | hqm
              · have hall : u.path.data.all isPathChar = true := by
                  rw [pathOk, Bool.and_eq_true] at hpok
                  exact hpok.1
                exact isPathChar_not_ws (List.all_eq_true.mp hall c hpm)
              · cases hqo : u.query with
                | none =>
                  rw [hqo] at hqm
                  simp at hqm
                | some qs =>
                  rw [hqo] at hqm
                  rw [hqo] at hqcanon
                  obtain ⟨ps, hpsne, hascii, htrk, hdata⟩ := hqcanon
                  rcases List.mem_cons.mp hqm with he | hm2
                  · subst he; decide
                  · rw [hdata] at hm2
                    obtain ⟨h1, h2, h3⟩ := serialize_char_facts hascii hm2
                    exact isWsChar_false_of_toNat ⟨by omega, by omega, by omega, by omega⟩

theorem normalize_canonical {u : UrlM} (hc : IsCanonical u) :
    normalize_crawl_url (UrlM.toStr u) = some (UrlM.toStr u) := by
  have hc2 := hc
  obtain ⟨hsch, hh1, hh2, hh3, hportc, ⟨t, hpath⟩, hpok, hqcanon, hfr⟩ := hc2
  have htrim : rustTrim (UrlM.toStr u) = UrlM.toStr u := by
    rw [rustTrim]
    exact congrArg String.mk (trimCh_eq_self (render_no_ws hc))
  have hne : ¬ (UrlM.toStr u).data = [] := by
    show ¬ UrlM.render u = []
    rw [UrlM.render]
    simp
  have hschOk : lowerCh u.scheme.data = "http".data ∨
      lowerCh u.scheme.data = "https".data := by
    rcases hsch with he | he <;> rw [he]
    · exact Or.inl (by decide)
    · exact Or.inr (by decide)
  simp only [normalize_crawl_url, htrim]
  rw [if_neg hne, parseUrl_render hc]
  show (if ¬(lowerCh u.scheme.data = "http".data ∨
        lowerCh u.scheme.data = "https".data)
      then none
      else some (UrlM.toStr { u with
        query :=
          if ((queryPairsOf u).filter fun kv => !is_tracking_query_param kv.1) = []
          then none
          else some ⟨serializePairsCh
            ((queryPairsOf u).filter fun kv => !is_tracking_query_param kv.1)⟩
        fragment := none })) = some (UrlM.toStr u)
  rw [if_neg (not_not_intro hschOk)]
  cases hq : u.query with
  | none =>
    have hqp : queryPairsOf u = [] := by simp [queryPairsOf, hq]
    rw [hqp, List.filter_nil, if_pos rfl]
    have hu : u = ⟨u.scheme, u.host, u.port, u.path, u.query, u.fragment⟩ := rfl
    rw [hq, hfr] at hu
    conv_rhs => rw [hu]
  | some qs =>
    rw [hq] at hqcanon
    obtain ⟨ps, hpsne, hascii, htrk, hdata⟩ := hqcanon
    have hqp : queryPairsOf u = ps := by
      simp only [queryPairsOf, hq]
      rw [hdata, parseQueryPairsCh_serialize ps hascii]
    have hfilter : ps.filter (fun kv => !is_tracking_query_param kv.1) = ps :=
      List.filter_eq_self.mpr fun kv hkv => by simp [htrk kv hkv]
    rw [hqp, hfilter, if_neg hpsne]
    have hqs : (⟨serializePairsCh ps⟩ : String) = qs := by
      rw [← hdata]
    rw [hqs]
    have hu : u = ⟨u.scheme, u.host, u.port, u.path, u.query, u.fragment⟩ := rfl
    rw [hq, hfr] at hu
    conv_rhs => rw [hu]

/-- C6: the URL normalizer is idempotent: whenever `normalize_crawl_url`
succeeds on an input `x` with output `y`, running it again on `y` succeeds
and returns `y` unchanged. -/
theorem C6_normalize_idempotent (x y : String)
    (h : normalize_crawl_url x = some y) : normalize_crawl_url y = some y := by
  obtain ⟨u, hcu, hy⟩ := normalize_sound h
  subst hy
  exact normalize_canonical hcu

/-- Witness for C6 at a concrete URL: normalizing
`https://Example.test/a?utm_source=x&b=c` yields `https://example.test/a?b=c`,
and the theorem applies to show the output is a fixed point. -/
theorem C6_normalize_idempotent_witness :
    normalize_crawl_url "https://Example.test/a?utm_source=x&b=c" =
      some "https://example.test/a?b=c" ∧
    normalize_crawl_url "https://example.test/a?b=c" =
      some "https://example.test/a?b=c" :=
  ⟨by decide,
    C6_normalize_idempotent "https://Example.test/a?utm_source=x&b=c"
      "https://example.test/a?b=c" (by decide)⟩

end Gh0st
